import Mathlib

/-!
# Verification of the `web-process-host` core

A shallow embedding of the process-host library (`src/process_host.ts`, the
version exporting `start`/`exit`/`reparent`/`isInSubtree`, together with
`src/ipc.ts`) and proofs about it.

JavaScript `Map<number, Process>` objects are embedded as association lists
`List (Nat × Process)`; JS `Set<number>` as duplicate-free `List Nat`;
JS `undefined`-able fields as `Option`; thrown exceptions as an `Err` value
threaded next to the (possibly partially mutated) state, matching in-place
mutation semantics; the unbounded `while` loops of `isInSubtree`, `getPID`
and the recursion of `exit` take an explicit fuel argument that is proved
sufficient under the table well-formedness invariant.
-/

set_option maxHeartbeats 1000000

namespace WebProcessHost

/-- Lookup in an association list, mirroring `Map.get`. -/
def aget {α β : Type} [DecidableEq α] : List (α × β) → α → Option β
  | [], _ => none
  | (k, v) :: rest, a => if k = a then some v else aget rest a

/-- Update/insert in an association list, mirroring `Map.set`:
replaces the binding in place if the key is present, otherwise appends. -/
def aset {α β : Type} [DecidableEq α] : List (α × β) → α → β → List (α × β)
  | [], a, b => [(a, b)]
  | (k, v) :: rest, a, b => if k = a then (a, b) :: rest else (k, v) :: aset rest a b

/-- Remove a key from an association list, mirroring `Map.delete`
(removes the unique binding of the key). -/
def adel {α β : Type} [DecidableEq α] : List (α × β) → α → List (α × β)
  | [], _ => []
  | (k, v) :: rest, a => if k = a then rest else (k, v) :: adel rest a

/-- The keys of an association list. -/
def akeys {α β : Type} (l : List (α × β)) : List α := l.map Prod.fst

@[simp] theorem akeys_nil {α β : Type} : akeys ([] : List (α × β)) = [] := rfl

@[simp] theorem akeys_cons {α β : Type} (p : α × β) (l : List (α × β)) :
    akeys (p :: l) = p.1 :: akeys l := rfl

theorem aget_aset_self {α β : Type} [DecidableEq α] (l : List (α × β)) (a : α) (b : β) :
    aget (aset l a b) a = some b := by
  induction l with
  | nil => simp [aget, aset]
  | cons hd tl ih =>
    obtain ⟨k, v⟩ := hd
    by_cases hk : k = a
    · simp [aget, aset, hk]
    · simp [aget, aset, hk, ih]

theorem aget_aset_ne {α β : Type} [DecidableEq α] (l : List (α × β)) (a c : α) (b : β)
    (h : c ≠ a) : aget (aset l a b) c = aget l c := by
  have hac : a ≠ c := fun hh => h hh.symm
  induction l with
  | nil => simp [aget, aset, if_neg hac]
  | cons hd tl ih =>
    obtain ⟨k, v⟩ := hd
    by_cases hk : k = a
    · subst hk
      simp only [aset, if_pos rfl, aget, if_neg hac]
    · simp only [aset, if_neg hk]
      by_cases hc : k = c
      · simp [aget, hc]
      · simp [aget, hc, ih]

theorem aget_eq_none_of_not_mem {α β : Type} [DecidableEq α] {l : List (α × β)} {a : α}
    (h : a ∉ akeys l) : aget l a = none := by
  induction l with
  | nil => simp [aget]
  | cons hd tl ih =>
    obtain ⟨k, v⟩ := hd
    simp only [akeys, List.map_cons, List.mem_cons, not_or] at h
    have hk : k ≠ a := fun hh => h.1 hh.symm
    simp only [aget, if_neg hk]
    exact ih h.2

theorem aget_adel_self {α β : Type} [DecidableEq α] (l : List (α × β)) (a : α)
    (hnd : (akeys l).Nodup) : aget (adel l a) a = none := by
  induction l with
  | nil => simp [aget, adel]
  | cons hd tl ih =>
    obtain ⟨k, v⟩ := hd
    simp only [akeys, List.map_cons, List.nodup_cons] at hnd
    by_cases hk : k = a
    · subst hk
      simp only [adel, if_pos rfl]
      exact aget_eq_none_of_not_mem hnd.1
    · simp only [adel, if_neg hk, aget, if_neg hk]
      exact ih hnd.2

theorem aget_adel_ne {α β : Type} [DecidableEq α] (l : List (α × β)) (a c : α)
    (h : c ≠ a) : aget (adel l a) c = aget l c := by
  induction l with
  | nil => simp [adel]
  | cons hd tl ih =>
    obtain ⟨k, v⟩ := hd
    by_cases hk : k = a
    · subst hk
      have hkc : k ≠ c := fun hh => h hh.symm
      simp [adel, aget, if_neg hkc]
    · by_cases hc : k = c
      · subst hc
        simp [adel, aget, if_neg hk]
      · simp [adel, aget, if_neg hk, if_neg hc, ih]

theorem aget_mem {α β : Type} [DecidableEq α] {l : List (α × β)} {a : α} {b : β}
    (h : aget l a = some b) : (a, b) ∈ l := by
  induction l with
  | nil => simp [aget] at h
  | cons hd tl ih =>
    obtain ⟨k, v⟩ := hd
    rw [aget] at h
    by_cases hk : k = a
    · subst hk
      rw [if_pos rfl] at h
      injection h with h2
      subst h2
      exact List.mem_cons_self _ _
    · rw [if_neg hk] at h
      exact List.mem_cons_of_mem _ (ih h)

theorem aget_mem_keys {α β : Type} [DecidableEq α] {l : List (α × β)} {a : α} {b : β}
    (h : aget l a = some b) : a ∈ akeys l := by
  have := aget_mem h
  simp only [akeys, List.mem_map]
  exact ⟨(a, b), this, rfl⟩

theorem aget_isSome_of_mem_keys {α β : Type} [DecidableEq α] {l : List (α × β)} {a : α}
    (h : a ∈ akeys l) : ∃ b, aget l a = some b := by
  induction l with
  | nil => simp [akeys] at h
  | cons hd tl ih =>
    obtain ⟨k, v⟩ := hd
    by_cases hk : k = a
    · exact ⟨v, by simp [aget, hk]⟩
    · simp only [akeys, List.map_cons, List.mem_cons] at h
      rcases h with h | h
      · exact absurd h.symm hk
      · simpa [aget, if_neg hk] using ih h

theorem mem_of_mem_aset_keys {α β : Type} [DecidableEq α] {l : List (α × β)} {a c : α} {b : β}
    (h : c ∈ akeys (aset l a b)) : c ∈ akeys l ∨ c = a := by
  induction l with
  | nil =>
    rw [aset] at h
    simp only [akeys_cons, akeys_nil, List.mem_singleton] at h
    exact Or.inr h
  | cons hd tl ih =>
    obtain ⟨k, v⟩ := hd
    by_cases hk : k = a
    · rw [aset, if_pos hk] at h
      simp only [akeys_cons, List.mem_cons] at h ⊢
      rcases h with h | h
      · exact Or.inr h
      · exact Or.inl (Or.inr h)
    · rw [aset, if_neg hk] at h
      simp only [akeys_cons, List.mem_cons] at h ⊢
      rcases h with h | h
      · exact Or.inl (Or.inl h)
      · rcases ih h with h2 | h2
        · exact Or.inl (Or.inr h2)
        · exact Or.inr h2

theorem akeys_aset_of_mem {α β : Type} [DecidableEq α] {l : List (α × β)} {a : α} (b : β)
    (h : a ∈ akeys l) : akeys (aset l a b) = akeys l := by
  induction l with
  | nil => simp [akeys] at h
  | cons hd tl ih =>
    obtain ⟨k, v⟩ := hd
    by_cases hk : k = a
    · rw [aset, if_pos hk]
      simp [akeys_cons, hk]
    · rw [aset, if_neg hk]
      simp only [akeys_cons, List.mem_cons] at h
      rcases h with h | h
      · exact absurd h.symm hk
      · simp only [akeys_cons, ih h]

theorem akeys_aset_of_not_mem {α β : Type} [DecidableEq α] {l : List (α × β)} {a : α} (b : β)
    (h : a ∉ akeys l) : akeys (aset l a b) = akeys l ++ [a] := by
  induction l with
  | nil => simp [aset]
  | cons hd tl ih =>
    obtain ⟨k, v⟩ := hd
    simp only [akeys_cons, List.mem_cons, not_or] at h
    have hk : k ≠ a := fun hh => h.1 hh.symm
    rw [aset, if_neg hk]
    simp only [akeys_cons, ih h.2, List.cons_append]

theorem mem_akeys_adel {α β : Type} [DecidableEq α] {l : List (α × β)} {a c : α}
    (h : c ∈ akeys (adel l a)) : c ∈ akeys l := by
  induction l with
  | nil => simp [adel] at h
  | cons hd tl ih =>
    obtain ⟨k, v⟩ := hd
    by_cases hk : k = a
    · rw [adel, if_pos hk] at h
      simp only [akeys_cons, List.mem_cons]
      exact Or.inr h
    · rw [adel, if_neg hk] at h
      simp only [akeys_cons, List.mem_cons] at h ⊢
      rcases h with h | h
      · exact Or.inl h
      · exact Or.inr (ih h)

theorem nodup_akeys_aset {α β : Type} [DecidableEq α] {l : List (α × β)} {a : α} {b : β}
    (h : (akeys l).Nodup) : (akeys (aset l a b)).Nodup := by
  by_cases hm : a ∈ akeys l
  · rwa [akeys_aset_of_mem b hm]
  · rw [akeys_aset_of_not_mem b hm]
    simp only [List.nodup_append, List.nodup_cons, List.nodup_nil]
    refine ⟨h, by simp, ?_⟩
    intro x hx
    simp only [List.mem_singleton]
    intro hxa; subst hxa; exact hm hx

theorem nodup_akeys_adel {α β : Type} [DecidableEq α] {l : List (α × β)} {a : α}
    (h : (akeys l).Nodup) : (akeys (adel l a)).Nodup := by
  induction l with
  | nil => simp [adel]
  | cons hd tl ih =>
    obtain ⟨k, v⟩ := hd
    simp only [akeys_cons, List.nodup_cons] at h
    by_cases hk : k = a
    · rw [adel, if_pos hk]
      exact h.2
    · rw [adel, if_neg hk]
      simp only [akeys_cons, List.nodup_cons]
      exact ⟨fun hm => h.1 (mem_akeys_adel hm), ih h.2⟩

/-! ## Data model: process records and the process table

`src/process_host.ts` keeps `table = new Map<number, Process>()` where
`Process = { port, parent?, children: Set<number>, disableApi?, name? }`.
The `disableApi` field is a closure (it tears down the RPC handlers) and
carries no table state, so it is not represented here; `port` is an opaque
endpoint identifier. -/

structure Process where
  port : Nat
  parent : Option Nat
  children : List Nat
  name : Option String
deriving DecidableEq, Repr

abbrev Table := List (Nat × Process)

/-- Keys of the process table (the set of live PIDs). -/
def keysOf (t : Table) : List Nat := akeys t

/-- `Set.add`: JS sets ignore duplicate insertions. -/
def childAdd (l : List Nat) (c : Nat) : List Nat := if c ∈ l then l else l ++ [c]

/-- `Set.delete` for a `Set<number>` embedded as a duplicate-free list. -/
def childDel (l : List Nat) (c : Nat) : List Nat := l.filter (fun x => x ≠ c)

/-- Errors thrown by the host. `nonTermination` is a fuel-exhaustion marker for
loops that would diverge in JS (it is proved unreachable under `WF`). -/
inductive Err where
  | notFound
  | notDescendant
  | topologyViolation
  | bug
  | nonTermination
deriving DecidableEq, Repr

/-- JS truthiness of an optional pid (`undefined` and `0` are falsy). -/
def truthyPid : Option Nat → Bool
  | none => false
  | some n => n ≠ 0

/-- The `while` loop body of `isInSubtree(pid, root)`:
walk `pid`'s parent chain; `true` the moment `root` is met, `false` when the
chain runs out (`undefined` parent), `Process not found` on a dangling pid.
`fuel` bounds the number of iterations (the JS loop is unbounded). -/
def isInSubtreeFuel (t : Table) (root : Nat) : Nat → Option Nat → Except Err Bool
  | _, none => .ok false
  | 0, some _ => .error .nonTermination
  | fuel + 1, some pid =>
    match aget t pid with
    | none => .error .notFound
    | some proc =>
      if pid = root then .ok true
      else isInSubtreeFuel t root fuel proc.parent

/-- `isInSubtree(pid, root)` with fuel `t.length + 1`, which is proved
sufficient for well-formed tables (`isInSubtree_total`). -/
def isInSubtree (t : Table) (pid root : Nat) : Except Err Bool :=
  isInSubtreeFuel t root (t.length + 1) (some pid)

/-- One step of `exit`'s bookkeeping after all children are gone:
remove `pid` from its parent's child set (JS: `if (proc.parent) { ... }`,
where a `0` parent is falsy), then delete the row.  The port
close/terminate calls carry no table state. -/
def exitDetach (t : Table) (pid : Nat) (proc : Process) : Table :=
  let t1 :=
    if truthyPid proc.parent then
      match proc.parent with
      | some pp =>
        match aget t pp with
        | some par => aset t pp { par with children := childDel par.children pid }
        | none => t
      | none => t
    else t
  adel t1 pid

mutual

/-- `exit(pid)` from `src/process_host.ts`: depth-first removal of `pid` and
its children.  Errors keep the partially mutated table, matching JS in-place
mutation; `fuel` bounds the recursion depth. -/
def exitF (fuel : Nat) (pid : Nat) (t : Table) : Table × Option Err :=
  match fuel with
  | 0 => (t, some .nonTermination)
  | fuel + 1 =>
    match aget t pid with
    | none => (t, some .notFound)
    | some proc =>
      match exitKids fuel proc.children t with
      | (t1, some e) => (t1, some e)
      | (t1, none) =>
        -- `proc` is the object captured before the loop (JS aliasing); its
        -- `parent` field is never mutated by the recursive child exits.
        (exitDetach t1 pid proc, none)
termination_by (fuel, 0)

/-- `for (const child of proc.children) exit(child)` — each child is fully
exited (with its subtree) before the next one. -/
def exitKids (fuel : Nat) (cs : List Nat) (t : Table) : Table × Option Err :=
  match cs with
  | [] => (t, none)
  | c :: rest =>
    match exitF fuel c t with
    | (t1, some e) => (t1, some e)
    | (t1, none) => exitKids fuel rest t1
termination_by (fuel, cs.length + 1)

end

/-- Map the value bound at `a` if present (functional rendering of a JS
field-write through an alias that is known to be in the map). -/
def amod {α β : Type} [DecidableEq α] (l : List (α × β)) (a : α) (f : β → β) : List (α × β) :=
  match aget l a with
  | some b => aset l a (f b)
  | none => l

/-- `getPID`'s loop `while (table.has(++idCounter));` — advance the counter
past occupied slots.  `fuel` bounds the loop. -/
def getPIDgo (t : Table) : Nat → Nat → Option Nat
  | 0, _ => none
  | fuel + 1, c => if (c + 1) ∈ keysOf t then getPIDgo t fuel (c + 1) else some (c + 1)

/-- `getPID()`: the returned pid is also the new value of `idCounter`.
Fuel `t.length + 1` is proved sufficient (`getPIDgo_total`); the fallback
value is unreachable. -/
def getPID (t : Table) (ctr : Nat) : Nat :=
  (getPIDgo t (t.length + 1) ctr).getD (ctr + t.length + 1)

/-! ## Names registry and `name(pid, options)` -/

abbrev Names := List (String × Nat)

/-- The full mutable state of one `processHost` instance:
the process table, the `names` registry and the `idCounter`.
(The `nameCallbacks` map only stores pending `wait` resolvers; firing them
posts messages and does not change this state.) -/
structure HostSt where
  table : Table
  names : Names
  ctr : Nat
deriving DecidableEq, Repr

/-- JS truthiness of an optional string (`undefined` and `""` are falsy). -/
def truthyName : Option String → Bool
  | none => false
  | some s => s ≠ ""

/-- The `for (const name of options)` loop of `name(pid, options)`:
take the first option that is not in `names`; `none` means the JS
`return false`. -/
def nameLoop (pid : Nat) : List String → Table → Names → Table × Names × Option String
  | [], t, ns => (t, ns, none)
  | n :: rest, t, ns =>
    match aget ns n with
    | some _ => nameLoop pid rest t ns
    | none =>
      let ns1 := aset ns n pid
      let t1 := amod t pid (fun proc => { proc with name := some n })
      (t1, ns1, some n)

/-- `name(pid, options)` from `src/process_host.ts`.  Note that the prior
name is deleted *before* the options are tried (`names.delete(proc.name);
proc.name = undefined;`), so a failing call does not keep it. -/
def nameOp (st : HostSt) (pid : Nat) (options : List String) :
    HostSt × Except Err (Option String) :=
  match aget st.table pid with
  | none => (st, .error .notFound)
  | some proc =>
    let cleared : Table × Names :=
      if truthyName proc.name then
        match proc.name with
        | some m => (aset st.table pid { proc with name := none }, adel st.names m)
        | none => (st.table, st.names)
      else (st.table, st.names)
    match nameLoop pid options cleared.1 cleared.2 with
    | (t1, ns1, r) => ({ st with table := t1, names := ns1 }, .ok r)

/-! ## `reparent` and the API-bound operations of `buildAPI` -/

/-- The host-level `reparent(pid, parent)`: detach from the old parent
(`if (proc.parent)`, with a truthiness check), then attach to the new one
(`if (parent)`). -/
def reparentInner (t : Table) (pid : Nat) (parent : Option Nat) : Table × Option Err :=
  match aget t pid with
  | none => (t, some .notFound)
  | some proc =>
    let missingTarget : Bool :=
      match parent with
      | none => false
      | some pp => ¬ pp ∈ keysOf t
    if missingTarget then (t, some .notFound)
    else
      let detach : Table × Option Err :=
        if truthyPid proc.parent then
          match proc.parent with
          | some pp =>
            match aget t pp with
            | none => (t, some .bug)
            | some old =>
              let t1 := aset t pp { old with children := childDel old.children pid }
              (amod t1 pid (fun pr => { pr with parent := none }), none)
          | none => (t, none)
        else (t, none)
      match detach with
      | (t1, some e) => (t1, some e)
      | (t1, none) =>
        if truthyPid parent then
          match parent with
          | some pp =>
            let t2 := amod t1 pp (fun tg => { tg with children := childAdd tg.children pid })
            (amod t2 pid (fun pr => { pr with parent := some pp }), none)
          | none => (t1, none)
        else (t1, none)

/-- The API-bound `reparent(process, target = pid)` of `buildAPI`:
subtree-authority check on `process`, then the cycle check
`isInSubtree(target, process)`, then the host-level reparent. -/
def apiReparent (caller : Nat) (node : Nat) (target : Nat) (t : Table) : Table × Option Err :=
  match isInSubtree t node caller with
  | .error e => (t, some e)
  | .ok false => (t, some .notDescendant)
  | .ok true =>
    match isInSubtree t target node with
    | .error e => (t, some e)
    | .ok true => (t, some .topologyViolation)
    | .ok false => reparentInner t node (some target)

/-- The API-bound `exit(process = pid)` of `buildAPI`.  The source checks
`isInSubtree(process, pid)` and then calls `exit(pid)` — it exits the
*caller*, not the validated target. -/
def apiExit (caller : Nat) (target : Nat) (t : Table) : Table × Option Err :=
  match isInSubtree t target caller with
  | .error e => (t, some e)
  | .ok false => (t, some .notDescendant)
  | .ok true => exitF (t.length + 1) caller t

/-- The API-bound `start(child)`: the new process is parented under the
caller, gets a fresh pid and is added to the caller's child set. -/
def apiStart (caller : Nat) (port : Nat) (st : HostSt) : HostSt × Option Err × Option Nat :=
  let t := st.table
  let parentLookup := if caller ≠ 0 then aget t caller else none
  if caller ≠ 0 ∧ parentLookup = none then (st, some .notFound, none)
  else
    let pid := getPID t st.ctr
    let t1 := aset t pid { port := port, parent := some caller, children := [], name := none }
    let t2 :=
      if parentLookup.isSome then
        amod t1 caller (fun pr => { pr with children := childAdd pr.children pid })
      else t1
    ({ st with table := t2, ctr := pid }, none, some pid)

/-- The host-level `send(pid, data, transfer)`: look the target up and post
`data` on its port.  Returns the port/payload pair that is posted. -/
def sendHost {δ : Type} (t : Table) (pid : Nat) (data : δ) : Except Err (Nat × δ) :=
  match aget t pid with
  | none => .error .notFound
  | some proc => .ok (proc.port, data)

/-- The API-bound `send(target, data, transfer)`: stamps the payload with the
caller's pid (`send(target, [pid, data], transfer)`), with no authority
check on `target`. -/
def apiSend {δ : Type} (caller : Nat) (target : Nat) (data : δ) (t : Table) :
    Except Err (Nat × (Nat × δ)) :=
  sendHost t target (caller, data)

/-! ## Sequences of API operations -/

/-- One API invocation, tagged with the pid the server was bound to. -/
inductive Op where
  | start (caller : Nat) (port : Nat)
  | reparent (caller : Nat) (node : Nat) (target : Nat)
  | exit (caller : Nat) (target : Nat)
deriving DecidableEq, Repr

/-- API servers are only ever bound to pids allocated by `getPID`, which are
positive. -/
def validOp : Op → Bool
  | .start c _ => 1 ≤ c
  | .reparent _ _ _ => true
  | .exit _ _ => true

/-- Execute one API call against the host state.  A thrown error is reported
alongside the (for these operations: unchanged-on-error) state, and the host
keeps serving. -/
def stepOp (op : Op) (st : HostSt) : HostSt × Option Err :=
  match op with
  | .start c port =>
    let r := apiStart c port st
    (r.1, r.2.1)
  | .reparent c node tgt =>
    let r := apiReparent c node tgt st.table
    ({ st with table := r.1 }, r.2)
  | .exit c tgt =>
    let r := apiExit c tgt st.table
    ({ st with table := r.1 }, r.2)

/-- Run a sequence of API calls. -/
def runOps (ops : List Op) (st : HostSt) : HostSt :=
  ops.foldl (fun s op => (stepOp op s).1) st

/-! ## The forest invariant -/

/-- `Reaches t p q`: `q` is `p` itself or a transitive ancestor of `p`,
following `parent` links through live rows. -/
inductive Reaches (t : Table) : Nat → Nat → Prop
  | refl (p : Nat) : Reaches t p p
  | step {p q r : Nat} (pr : Process) :
      aget t p = some pr → pr.parent = some q → Reaches t q r → Reaches t p r

/-- The parent relation has no cycle: no strict parent edge closes back. -/
def AcyclicR (t : Table) : Prop :=
  ∀ p pr q, aget t p = some pr → pr.parent = some q → ¬ Reaches t q p

/-- Well-formedness of the process table, as maintained by the host:
no duplicate pids, pids are positive (so JS truthiness of a pid equals
presence), parent pointers are live and symmetric with child sets, child
sets are duplicate-free and point back, and the parent relation is
acyclic. -/
structure WF (t : Table) : Prop where
  nodup : (keysOf t).Nodup
  keysPos : ∀ k ∈ keysOf t, 1 ≤ k
  parentChild : ∀ p pr pp, aget t p = some pr → pr.parent = some pp →
    ∃ ppr, aget t pp = some ppr ∧ p ∈ ppr.children
  childMem : ∀ p pr c, aget t p = some pr → c ∈ pr.children →
    ∃ cpr, aget t c = some cpr ∧ cpr.parent = some p
  childNodup : ∀ p pr, aget t p = some pr → pr.children.Nodup
  acyclic : AcyclicR t

theorem WF.parentLive {t : Table} (h : WF t) :
    ∀ p pr pp, aget t p = some pr → pr.parent = some pp → ∃ ppr, aget t pp = some ppr :=
  fun p pr pp h1 h2 => (h.parentChild p pr pp h1 h2).imp (fun _ hx => hx.1)

theorem Reaches.trans {t : Table} {a b c : Nat} (h1 : Reaches t a b) (h2 : Reaches t b c) :
    Reaches t a c := by
  induction h1 with
  | refl p => exact h2
  | step pr ha hb _ ih => exact Reaches.step pr ha hb (ih h2)

/-- The parent edge stored at a pid, `none` when the pid is dead. -/
def edgeAt (t : Table) (p : Nat) : Option (Option Nat) :=
  (aget t p).map (fun pr => pr.parent)

theorem edgeAt_some {t : Table} {p : Nat} {e : Option Nat} (h : edgeAt t p = some e) :
    ∃ pr, aget t p = some pr ∧ pr.parent = e := by
  unfold edgeAt at h
  match hq : aget t p with
  | none => rw [hq] at h; simp at h
  | some pr =>
    rw [hq] at h
    simp only [Option.map_some', Option.some.injEq] at h
    exact ⟨pr, rfl, h⟩

theorem edgeAt_eq_some {t : Table} {p : Nat} {pr : Process} {q : Nat}
    (h1 : aget t p = some pr) (h2 : pr.parent = some q) : edgeAt t p = some (some q) := by
  simp [edgeAt, h1, h2]

theorem reaches_live {t : Table}
    (hPL : ∀ p pr pp, aget t p = some pr → pr.parent = some pp → ∃ ppr, aget t pp = some ppr)
    {q x : Nat} (h : Reaches t q x) : (∃ pr, aget t q = some pr) → ∃ xr, aget t x = some xr := by
  induction h with
  | refl p => exact id
  | @step p m r pr h1 h2 _ ih => intro _; exact ih (hPL p pr m h1 h2)

/-! ### Soundness, completeness and fuel-sufficiency of the subtree walk -/

@[simp] theorem isInSubtreeFuel_none (t : Table) (root f : Nat) :
    isInSubtreeFuel t root f none = .ok false := by
  cases f <;> rfl

theorem walk_true_reaches (t : Table) (root : Nat) :
    ∀ (f : Nat) (q : Nat), isInSubtreeFuel t root f (some q) = .ok true → Reaches t q root := by
  intro f
  induction f with
  | zero => intro q h; simp [isInSubtreeFuel] at h
  | succ f ih =>
    intro q h
    rw [isInSubtreeFuel] at h
    match hq : aget t q with
    | none => rw [hq] at h; simp at h
    | some pr =>
      rw [hq] at h
      dsimp only at h
      by_cases hroot : q = root
      · subst hroot; exact Reaches.refl q
      · rw [if_neg hroot] at h
        match hpar : pr.parent with
        | none => rw [hpar] at h; simp [isInSubtreeFuel] at h
        | some pp =>
          rw [hpar] at h
          exact Reaches.step pr hq hpar (ih pp h)

theorem walk_not_false_of_reaches {t : Table} {root q : Nat} (h : Reaches t q root) :
    ∀ f, isInSubtreeFuel t root f (some q) ≠ .ok false := by
  induction h with
  | refl p =>
    intro f hf
    match f with
    | 0 => simp [isInSubtreeFuel] at hf
    | f + 1 =>
      rw [isInSubtreeFuel] at hf
      match hq : aget t p with
      | none => rw [hq] at hf; simp at hf
      | some pr =>
        rw [hq] at hf
        dsimp only at hf
        rw [if_pos rfl] at hf
        simp at hf
  | @step p m r pr h1 h2 _ ih =>
    intro f hf
    match f with
    | 0 => simp [isInSubtreeFuel] at hf
    | f + 1 =>
      rw [isInSubtreeFuel, h1] at hf
      dsimp only at hf
      by_cases hroot : p = r
      · rw [if_pos hroot] at hf; simp at hf
      · rw [if_neg hroot, h2] at hf
        exact ih f hf

theorem walk_false_not_reaches {t : Table} {root q : Nat} {f : Nat}
    (h : isInSubtreeFuel t root f (some q) = .ok false) : ¬ Reaches t q root :=
  fun hr => walk_not_false_of_reaches hr f h

theorem walk_total (t : Table) (root : Nat) (hA : AcyclicR t)
    (hPL : ∀ p pr pp, aget t p = some pr → pr.parent = some pp → ∃ ppr, aget t pp = some ppr) :
    ∀ (fuel : Nat) (S : Finset Nat) (q : Nat) (pr : Process),
      aget t q = some pr → (∀ x, Reaches t q x → x ∈ S) → S.card < fuel →
      ∃ b, isInSubtreeFuel t root fuel (some q) = .ok b := by
  intro fuel
  induction fuel with
  | zero =>
    intro S q pr _ hS hcard
    omega
  | succ f ih =>
    intro S q pr hq hS hcard
    rw [isInSubtreeFuel, hq]
    dsimp only
    by_cases hroot : q = root
    · exact ⟨true, by rw [if_pos hroot]⟩
    · rw [if_neg hroot]
      match hpar : pr.parent with
      | none => exact ⟨false, isInSubtreeFuel_none t root f⟩
      | some pp =>
        obtain ⟨ppr, hpp⟩ := hPL q pr pp hq hpar
        refine ih (S.erase q) pp ppr hpp ?_ ?_
        · intro x hx
          have hxq : x ≠ q := fun hxq => hA q pr pp hq hpar (hxq ▸ hx)
          exact Finset.mem_erase.mpr ⟨hxq, hS x (Reaches.step pr hq hpar hx)⟩
        · have hqS : q ∈ S := hS q (Reaches.refl q)
          have := Finset.card_erase_of_mem hqS
          have hpos : 0 < S.card := Finset.card_pos.mpr ⟨q, hqS⟩
          omega

theorem isInSubtree_total {t : Table} {q : Nat} (root : Nat) (hWF : WF t)
    (hq : q ∈ keysOf t) : ∃ b, isInSubtree t q root = .ok b := by
  obtain ⟨pr, hpr⟩ := aget_isSome_of_mem_keys hq
  refine walk_total t root hWF.acyclic hWF.parentLive (t.length + 1) (keysOf t).toFinset q pr
    hpr ?_ ?_
  · intro x hx
    obtain ⟨xr, hxr⟩ := reaches_live hWF.parentLive hx ⟨pr, hpr⟩
    exact List.mem_toFinset.mpr (aget_mem_keys hxr)
  · have h1 : (keysOf t).toFinset.card ≤ (keysOf t).length := (keysOf t).toFinset_card_le
    have h2 : (keysOf t).length = t.length := List.length_map _ _
    omega

theorem isInSubtree_true_iff {t : Table} {q : Nat} (root : Nat) (hWF : WF t)
    (hq : q ∈ keysOf t) : isInSubtree t q root = .ok true ↔ Reaches t q root := by
  constructor
  · exact walk_true_reaches t root (t.length + 1) q
  · intro hr
    obtain ⟨b, hb⟩ := isInSubtree_total root hWF hq
    match b with
    | true => exact hb
    | false => exact absurd hb (walk_not_false_of_reaches hr (t.length + 1))

theorem isInSubtree_false_iff {t : Table} {q : Nat} (root : Nat) (hWF : WF t)
    (hq : q ∈ keysOf t) : isInSubtree t q root = .ok false ↔ ¬ Reaches t q root := by
  constructor
  · exact walk_false_not_reaches
  · intro hr
    obtain ⟨b, hb⟩ := isInSubtree_total root hWF hq
    match b with
    | true => exact absurd (walk_true_reaches t root (t.length + 1) q hb) hr
    | false => exact hb

/-! ### Acyclicity under table transformations -/

theorem reaches_of_edge_sub {t t' : Table}
    (hsub : ∀ q pr', aget t' q = some pr' → ∃ pr, aget t q = some pr ∧ pr'.parent = pr.parent)
    {a b : Nat} (h : Reaches t' a b) : Reaches t a b := by
  induction h with
  | refl p => exact Reaches.refl p
  | @step p q r pr' h1 h2 _ ih =>
    obtain ⟨pr, hpr, hpar⟩ := hsub p pr' h1
    exact Reaches.step pr hpr (hpar.symm.trans h2) ih

theorem acyclic_of_edge_sub {t t' : Table}
    (hsub : ∀ q pr', aget t' q = some pr' → ∃ pr, aget t q = some pr ∧ pr'.parent = pr.parent)
    (hA : AcyclicR t) : AcyclicR t' := by
  intro p pr' q h1 h2 hre
  obtain ⟨pr, hpr, hpar⟩ := hsub p pr' h1
  exact hA p pr q hpr (hpar.symm.trans h2) (reaches_of_edge_sub hsub hre)

theorem reaches_avoid_fresh {t t' : Table} {pid : Nat}
    (ha : ∀ q, q ≠ pid → edgeAt t' q = edgeAt t q)
    (hb : ∀ q pr, aget t q = some pr → pr.parent ≠ some pid)
    {q x : Nat} (h : Reaches t' q x) : q ≠ pid → Reaches t q x ∧ x ≠ pid := by
  induction h with
  | refl p => intro hq; exact ⟨Reaches.refl p, hq⟩
  | @step p m r pr' h1 h2 _ ih =>
    intro hq
    have he : edgeAt t p = some (some m) := by
      rw [← ha p hq]
      exact edgeAt_eq_some h1 h2
    obtain ⟨pr, hpr, hpar⟩ := edgeAt_some he
    have hm : m ≠ pid := by
      intro hmp; subst hmp
      exact hb p pr hpr hpar
    obtain ⟨h4, h5⟩ := ih hm
    exact ⟨Reaches.step pr hpr hpar h4, h5⟩

/-- A chain in the reparented table either already existed, or runs to the
reparented node `p` and continues from the new parent `tgt`. -/
theorem reaches_reparent_decomp {t t' : Table} {p tgt : Nat}
    (ha : ∀ q, q ≠ p → edgeAt t' q = edgeAt t q)
    (hbp : edgeAt t' p = some (some tgt))
    {q x : Nat} (h : Reaches t' q x) :
    Reaches t q x ∨ (Reaches t q p ∧ Reaches t' tgt x) := by
  induction h with
  | refl a => exact Or.inl (Reaches.refl a)
  | @step a m r pr' h1 h2 h3 ih =>
    by_cases hap : a = p
    · subst hap
      have hm : m = tgt := by
        have he : edgeAt t' a = some (some m) := edgeAt_eq_some h1 h2
        rw [hbp] at he
        injection he with he2
        injection he2 with he3
        exact he3.symm
      subst hm
      exact Or.inr ⟨Reaches.refl a, h3⟩
    · have he : edgeAt t a = some (some m) := by
        rw [← ha a hap]
        exact edgeAt_eq_some h1 h2
      obtain ⟨pr, hpr, hpar⟩ := edgeAt_some he
      rcases ih with h4 | ⟨h4, h5⟩
      · exact Or.inl (Reaches.step pr hpr hpar h4)
      · exact Or.inr ⟨Reaches.step pr hpr hpar h4, h5⟩

/-- Re-attaching `p` under a node `tgt` that cannot reach back to `p` keeps
the parent relation acyclic. -/
theorem acyclic_reparent {t t' : Table} {p tgt : Nat}
    (ha : ∀ q, q ≠ p → edgeAt t' q = edgeAt t q)
    (hbp : edgeAt t' p = some (some tgt))
    (hc : ¬ Reaches t tgt p)
    (hA : AcyclicR t) : AcyclicR t' := by
  have S1 : ∀ x, Reaches t' tgt x → Reaches t tgt x ∧ x ≠ p := by
    intro x hx
    rcases reaches_reparent_decomp ha hbp hx with h | ⟨h, _⟩
    · refine ⟨h, ?_⟩
      intro hxp; subst hxp; exact hc h
    · exact absurd h hc
  intro a pr' b h1 h2 hre
  by_cases hap : a = p
  · subst hap
    have hb : b = tgt := by
      have he : edgeAt t' a = some (some b) := edgeAt_eq_some h1 h2
      rw [hbp] at he
      injection he with he2
      injection he2 with he3
      exact he3.symm
    subst hb
    obtain ⟨_, hne⟩ := S1 a hre
    exact hne rfl
  · have he : edgeAt t a = some (some b) := by
      rw [← ha a hap]
      exact edgeAt_eq_some h1 h2
    obtain ⟨pr, hpr, hpar⟩ := edgeAt_some he
    rcases reaches_reparent_decomp ha hbp hre with h | ⟨h, h5⟩
    · exact hA a pr b hpr hpar h
    · obtain ⟨h6, _⟩ := S1 a h5
      exact hc (Reaches.trans (Reaches.trans h6 (Reaches.step pr hpr hpar (Reaches.refl b))) h)

/-! ### Further chain lemmas, used for `exit` -/

/-- The parent pointer is deterministic, so a non-trivial chain factors
through the parent. -/
theorem reaches_inv_ne {t : Table} {a b : Nat} (h : Reaches t a b) :
    a ≠ b → ∀ pr m, aget t a = some pr → pr.parent = some m → Reaches t m b := by
  cases h with
  | refl => intro hne _ _ _ _; exact absurd rfl hne
  | step pr2 h1 h2 h3 =>
    intro _ pr m hpr hm
    rw [h1] at hpr
    injection hpr with he
    subst he
    rw [h2] at hm
    injection hm with he2
    subst he2
    exact h3

/-- Two targets reachable from one node lie on one chain. -/
theorem reaches_linear {t : Table} {x a : Nat} (h1 : Reaches t x a) :
    ∀ {b}, Reaches t x b → Reaches t a b ∨ Reaches t b a := by
  induction h1 with
  | refl p => intro b h2; exact Or.inl h2
  | @step p m r pr hp hpar h3 ih =>
    intro b h2
    cases h2 with
    | refl => exact Or.inr (Reaches.step pr hp hpar h3)
    | step pr2 hp2 hpar2 h4 =>
      rw [hp] at hp2
      injection hp2 with he
      subst he
      rw [hpar] at hpar2
      injection hpar2 with he2
      subst he2
      exact ih h4

/-- A non-trivial chain decomposes at its last edge. -/
theorem reaches_last_step {t : Table} {q p : Nat} (h : Reaches t q p) :
    q ≠ p → ∃ x pr, Reaches t q x ∧ aget t x = some pr ∧ pr.parent = some p := by
  induction h with
  | refl a => intro hne; exact absurd rfl hne
  | @step a m r pr h1 h2 h3 ih =>
    intro _
    by_cases hmr : m = r
    · subst hmr
      exact ⟨a, pr, Reaches.refl a, h1, h2⟩
    · obtain ⟨x, pr2, hx1, hx2, hx3⟩ := ih hmr
      exact ⟨x, pr2, Reaches.step pr h1 h2 hx1, hx2, hx3⟩

/-- Subtrees of two distinct children of the same parent are disjoint. -/
theorem child_subtrees_disjoint {t : Table} (hA : AcyclicR t) {p c1 c2 : Nat}
    {pr1 pr2 : Process}
    (h1 : aget t c1 = some pr1) (hp1 : pr1.parent = some p)
    (h2 : aget t c2 = some pr2) (hp2 : pr2.parent = some p)
    (hne : c1 ≠ c2) {x : Nat} (hx1 : Reaches t x c1) (hx2 : Reaches t x c2) : False := by
  rcases reaches_linear hx1 hx2 with h | h
  · exact hA c2 pr2 p h2 hp2 (reaches_inv_ne h hne pr1 p h1 hp1)
  · exact hA c1 pr1 p h1 hp1 (reaches_inv_ne h (Ne.symm hne) pr2 p h2 hp2)

/-- `q` is removed by exiting any of the roots in `rs`. -/
def exitedBy (t : Table) (rs : List Nat) (q : Nat) : Prop :=
  ∃ c ∈ rs, Reaches t q c

/-- Drop the members of `rs` from a row's child set. -/
def pruneKids (rs : List Nat) (pr : Process) : Process :=
  { pr with children := pr.children.filter (fun x => decide (¬ x ∈ rs)) }

theorem exitedBy_nil (t : Table) (q : Nat) : ¬ exitedBy t [] q := by
  rintro ⟨c, hc, _⟩
  simp at hc

theorem exitedBy_singleton {t : Table} {c q : Nat} : exitedBy t [c] q ↔ Reaches t q c := by
  constructor
  · rintro ⟨d, hd, h⟩
    simp only [List.mem_singleton] at hd
    subst hd; exact h
  · intro h; exact ⟨c, List.mem_singleton_self c, h⟩

theorem pruneKids_nil (pr : Process) : pruneKids [] pr = pr := by
  unfold pruneKids
  cases pr with
  | mk port parent children name => simp

@[simp] theorem pruneKids_parent (rs : List Nat) (pr : Process) :
    (pruneKids rs pr).parent = pr.parent := rfl

@[simp] theorem pruneKids_port (rs : List Nat) (pr : Process) :
    (pruneKids rs pr).port = pr.port := rfl

@[simp] theorem pruneKids_name (rs : List Nat) (pr : Process) :
    (pruneKids rs pr).name = pr.name := rfl

theorem pruneKids_comp (c : Nat) (rs : List Nat) (pr : Process) :
    pruneKids rs (pruneKids [c] pr) = pruneKids (c :: rs) pr := by
  unfold pruneKids
  cases pr with
  | mk port parent children name =>
    simp only [List.filter_filter]
    congr 1
    apply List.filter_congr
    intro x _
    by_cases h1 : x ∈ rs <;> by_cases h2 : x = c <;>
      simp [h1, h2, List.mem_cons, List.mem_singleton]

/-! ### Length and `amod` lemmas -/

theorem aset_length_of_mem {α β : Type} [DecidableEq α] {l : List (α × β)} {a : α} (b : β)
    (h : a ∈ akeys l) : (aset l a b).length = l.length := by
  induction l with
  | nil => simp [akeys] at h
  | cons hd tl ih =>
    obtain ⟨k, v⟩ := hd
    by_cases hk : k = a
    · rw [aset, if_pos hk]
      simp
    · rw [aset, if_neg hk]
      simp only [akeys_cons, List.mem_cons] at h
      rcases h with h | h
      · exact absurd h.symm hk
      · simp [ih h]

theorem adel_length_of_mem {α β : Type} [DecidableEq α] {l : List (α × β)} {a : α}
    (h : a ∈ akeys l) : (adel l a).length + 1 = l.length := by
  induction l with
  | nil => simp [akeys] at h
  | cons hd tl ih =>
    obtain ⟨k, v⟩ := hd
    by_cases hk : k = a
    · rw [adel, if_pos hk]
      simp
    · rw [adel, if_neg hk]
      simp only [akeys_cons, List.mem_cons] at h
      rcases h with h | h
      · exact absurd h.symm hk
      · simp only [List.length_cons, ih h]

theorem adel_length_le {α β : Type} [DecidableEq α] (l : List (α × β)) (a : α) :
    (adel l a).length ≤ l.length := by
  induction l with
  | nil => simp [adel]
  | cons hd tl ih =>
    obtain ⟨k, v⟩ := hd
    by_cases hk : k = a
    · rw [adel, if_pos hk]; simp
    · rw [adel, if_neg hk]
      simp only [List.length_cons]
      omega

theorem aget_amod_self {α β : Type} [DecidableEq α] (l : List (α × β)) (a : α) (f : β → β) :
    aget (amod l a f) a = (aget l a).map f := by
  unfold amod
  match h : aget l a with
  | none => simp [h]
  | some b => simp [aget_aset_self]

theorem aget_amod_ne {α β : Type} [DecidableEq α] (l : List (α × β)) (a c : α) (f : β → β)
    (h : c ≠ a) : aget (amod l a f) c = aget l c := by
  unfold amod
  match hb : aget l a with
  | none => rfl
  | some b => exact aget_aset_ne l a c (f b) h

theorem akeys_amod {α β : Type} [DecidableEq α] (l : List (α × β)) (a : α) (f : β → β) :
    akeys (amod l a f) = akeys l := by
  unfold amod
  match hb : aget l a with
  | none => rfl
  | some b => exact akeys_aset_of_mem (f b) (aget_mem_keys hb)

theorem amod_length {α β : Type} [DecidableEq α] (l : List (α × β)) (a : α) (f : β → β) :
    (amod l a f).length = l.length := by
  unfold amod
  match hb : aget l a with
  | none => rfl
  | some b => exact aset_length_of_mem (f b) (aget_mem_keys hb)

/-! ### Well-formedness after removing whole subtrees -/

/-- Any table satisfying the removed-subtrees characterization is a
parent-edge sub-table of the original. -/
theorem edge_sub_of_removed {t t' : Table} {rs : List Nat}
    (hA : ∀ q, exitedBy t rs q → aget t' q = none)
    (hB : ∀ q, ¬ exitedBy t rs q → aget t' q = (aget t q).map (pruneKids rs)) :
    ∀ q pr', aget t' q = some pr' → ∃ pr, aget t q = some pr ∧ pr'.parent = pr.parent := by
  intro q pr' h
  by_cases hq : exitedBy t rs q
  · rw [hA q hq] at h
    exact absurd h (by simp)
  · rw [hB q hq] at h
    match hg : aget t q with
    | none => rw [hg] at h; simp at h
    | some pr =>
      rw [hg] at h
      simp only [Option.map_some', Option.some.injEq] at h
      exact ⟨pr, rfl, by rw [← h]; rfl⟩

/-- Removing the subtrees rooted at `rs` (and pruning `rs` out of the
surviving child sets) preserves well-formedness. -/
theorem wf_of_subtree_removed {t t' : Table} {rs : List Nat} (hWF : WF t)
    (hA : ∀ q, exitedBy t rs q → aget t' q = none)
    (hB : ∀ q, ¬ exitedBy t rs q → aget t' q = (aget t q).map (pruneKids rs))
    (hnd : (keysOf t').Nodup) (hsub : ∀ k ∈ keysOf t', k ∈ keysOf t) : WF t' := by
  refine ⟨hnd, fun k hk => hWF.keysPos k (hsub k hk), ?_, ?_, ?_, ?_⟩
  · -- parentChild
    intro p pr' pp h1 h2
    by_cases hp : exitedBy t rs p
    · rw [hA p hp] at h1; simp at h1
    · rw [hB p hp] at h1
      match hg : aget t p with
      | none => rw [hg] at h1; simp at h1
      | some pr =>
        rw [hg] at h1
        simp only [Option.map_some', Option.some.injEq] at h1
        subst h1
        rw [pruneKids_parent] at h2
        obtain ⟨ppr, hppr, hmem⟩ := hWF.parentChild p pr pp hg h2
        have hppx : ¬ exitedBy t rs pp := by
          rintro ⟨c, hc, hre⟩
          exact hp ⟨c, hc, Reaches.step pr hg h2 hre⟩
        refine ⟨pruneKids rs ppr, ?_, ?_⟩
        · rw [hB pp hppx, hppr]; rfl
        · unfold pruneKids
          simp only [List.mem_filter, decide_eq_true_eq]
          refine ⟨hmem, ?_⟩
          intro hmemrs
          exact hp ⟨p, hmemrs, Reaches.refl p⟩
  · -- childMem
    intro p pr' c h1 h2
    by_cases hp : exitedBy t rs p
    · rw [hA p hp] at h1; simp at h1
    · rw [hB p hp] at h1
      match hg : aget t p with
      | none => rw [hg] at h1; simp at h1
      | some pr =>
        rw [hg] at h1
        simp only [Option.map_some', Option.some.injEq] at h1
        subst h1
        unfold pruneKids at h2
        simp only [List.mem_filter, decide_eq_true_eq] at h2
        obtain ⟨hcm, hcrs⟩ := h2
        obtain ⟨cpr, hcpr, hcp⟩ := hWF.childMem p pr c hg hcm
        have hcx : ¬ exitedBy t rs c := by
          rintro ⟨c2, hc2, hre⟩
          by_cases hcc : c = c2
          · exact hcrs (hcc ▸ hc2)
          · exact hp ⟨c2, hc2, reaches_inv_ne hre hcc cpr p hcpr hcp⟩
        refine ⟨pruneKids rs cpr, ?_, ?_⟩
        · rw [hB c hcx, hcpr]; rfl
        · rw [pruneKids_parent]; exact hcp
  · -- childNodup
    intro p pr' h1
    by_cases hp : exitedBy t rs p
    · rw [hA p hp] at h1; simp at h1
    · rw [hB p hp] at h1
      match hg : aget t p with
      | none => rw [hg] at h1; simp at h1
      | some pr =>
        rw [hg] at h1
        simp only [Option.map_some', Option.some.injEq] at h1
        subst h1
        exact (hWF.childNodup p pr hg).filter _
  · exact acyclic_of_edge_sub (edge_sub_of_removed hA hB) hWF.acyclic

theorem exitDetach_some {t : Table} {pid pp : Nat} {proc par : Process}
    (hpar : proc.parent = some pp) (hpp0 : pp ≠ 0) (hget : aget t pp = some par) :
    exitDetach t pid proc
      = adel (aset t pp { par with children := childDel par.children pid }) pid := by
  unfold exitDetach
  rw [hpar]
  simp only [truthyPid, ne_eq, hpp0, not_false_eq_true, decide_True, if_true, hget]

theorem exitDetach_none {t : Table} {pid : Nat} {proc : Process}
    (hpar : proc.parent = none) :
    exitDetach t pid proc = adel t pid := by
  unfold exitDetach
  rw [hpar]
  rfl

/-- A chain that survives a subtree removal still exists afterwards. -/
theorem reaches_map_transfer {t t1 : Table} {rs : List Nat} {q c : Nat}
    (h : Reaches t q c) :
    (∀ x, Reaches t x c → aget t1 x = (aget t x).map (pruneKids rs)) → Reaches t1 q c := by
  induction h with
  | refl a => intro _; exact Reaches.refl a
  | @step a m r pr h1 h2 h3 ih =>
    intro hB
    have ha : aget t1 a = some (pruneKids rs pr) := by
      rw [hB a (Reaches.step pr h1 h2 h3), h1]; rfl
    exact Reaches.step (pruneKids rs pr) ha (by rw [pruneKids_parent]; exact h2) (ih hB)


/-- Main induction for `exit`: with enough fuel, exiting a live `p` in a
well-formed table succeeds and removes exactly the subtree of `p`, pruning
`p` out of its parent's child set; and the child loop removes exactly the
subtrees of the listed children. -/
theorem exit_induction : ∀ fuel : Nat,
    (∀ (t : Table) (p : Nat) (proc : Process) (S : Finset Nat), WF t →
      aget t p = some proc → (∀ x, Reaches t x p → x ∈ S) → S.card < fuel →
      ∃ t', exitF fuel p t = (t', none) ∧
        (∀ q, Reaches t q p → aget t' q = none) ∧
        (∀ q, ¬ Reaches t q p → aget t' q = (aget t q).map (pruneKids [p])) ∧
        (keysOf t').Nodup ∧ (∀ k ∈ keysOf t', k ∈ keysOf t) ∧ t'.length < t.length) ∧
    (∀ (cs : List Nat) (t : Table) (p : Nat) (S : Finset Nat), WF t →
      cs.Nodup → (∀ c ∈ cs, ∃ cpr, aget t c = some cpr ∧ cpr.parent = some p) →
      (∀ c ∈ cs, ∀ x, Reaches t x c → x ∈ S) → S.card < fuel →
      ∃ t', exitKids fuel cs t = (t', none) ∧
        (∀ q, exitedBy t cs q → aget t' q = none) ∧
        (∀ q, ¬ exitedBy t cs q → aget t' q = (aget t q).map (pruneKids cs)) ∧
        (keysOf t').Nodup ∧ (∀ k ∈ keysOf t', k ∈ keysOf t) ∧ t'.length ≤ t.length) := by
  intro fuel
  induction fuel with
  | zero =>
    constructor
    · intro t p proc S _ _ _ hcard
      omega
    · intro cs t p S _ _ _ _ hcard
      omega
  | succ fuel ih =>
    obtain ⟨_, ihQ⟩ := ih
    have hP : ∀ (t : Table) (p : Nat) (proc : Process) (S : Finset Nat), WF t →
        aget t p = some proc → (∀ x, Reaches t x p → x ∈ S) → S.card < fuel + 1 →
        ∃ t', exitF (fuel + 1) p t = (t', none) ∧
          (∀ q, Reaches t q p → aget t' q = none) ∧
          (∀ q, ¬ Reaches t q p → aget t' q = (aget t q).map (pruneKids [p])) ∧
          (keysOf t').Nodup ∧ (∀ k ∈ keysOf t', k ∈ keysOf t) ∧ t'.length < t.length := by
      intro t p proc S hWF hp hS hcard
      have hkidsLive : ∀ c ∈ proc.children, ∃ cpr, aget t c = some cpr ∧ cpr.parent = some p :=
        fun c hc => hWF.childMem p proc c hp hc
      have hSerase : ∀ c ∈ proc.children, ∀ x, Reaches t x c → x ∈ S.erase p := by
        intro c hc x hx
        obtain ⟨cpr, hcpr, hcpp⟩ := hkidsLive c hc
        have hxp : Reaches t x p :=
          Reaches.trans hx (Reaches.step cpr hcpr hcpp (Reaches.refl p))
        refine Finset.mem_erase.mpr ⟨?_, hS x hxp⟩
        intro hxeq
        exact hWF.acyclic c cpr p hcpr hcpp (hxeq ▸ hx)
      have hpS : p ∈ S := hS p (Reaches.refl p)
      have hcard2 : (S.erase p).card < fuel := by
        have h1 := Finset.card_erase_of_mem hpS
        have h2 : 0 < S.card := Finset.card_pos.mpr ⟨p, hpS⟩
        omega
      obtain ⟨t1, heq, hK1, hK2, hnd1, hsub1, hlen1⟩ :=
        ihQ proc.children t p (S.erase p) hWF (hWF.childNodup p proc hp) hkidsLive hSerase hcard2
      have hNotExP : ¬ exitedBy t proc.children p := by
        rintro ⟨c, hc, hre⟩
        obtain ⟨cpr, hcpr, hcpp⟩ := hkidsLive c hc
        exact hWF.acyclic c cpr p hcpr hcpp hre
      have hpT1 : aget t1 p = some (pruneKids proc.children proc) := by
        rw [hK2 p hNotExP, hp]; rfl
      have hpK1 : p ∈ keysOf t1 := aget_mem_keys hpT1
      have hstep : exitF (fuel + 1) p t = (exitDetach t1 p proc, none) := by
        rw [exitF, hp]
        dsimp only
        rw [heq]
      -- the exited set of the whole call, via the last edge of a chain
      have hExited : ∀ q, Reaches t q p → q ≠ p → exitedBy t proc.children q := by
        intro q hq hqp
        obtain ⟨x, xp, hqx, hx, hxp⟩ := reaches_last_step hq hqp
        obtain ⟨pr2, hpr2, hxmem⟩ := hWF.parentChild x xp p hx hxp
        rw [hp] at hpr2
        injection hpr2 with he
        subst he
        exact ⟨x, hxmem, hqx⟩
      have hNotExQ : ∀ q, ¬ Reaches t q p → ¬ exitedBy t proc.children q := by
        intro q hq
        rintro ⟨c, hc, hre⟩
        obtain ⟨cpr, hcpr, hcpp⟩ := hkidsLive c hc
        exact hq (Reaches.trans hre (Reaches.step cpr hcpr hcpp (Reaches.refl p)))
      -- for survivors that are not p's parent, both prunings are no-ops
      have hNoOther : ∀ q qr, q ≠ p → proc.parent ≠ some q → aget t q = some qr →
          pruneKids proc.children qr = pruneKids [p] qr := by
        intro q qr hqp hqpp hqr
        unfold pruneKids
        have h1 : List.filter (fun x => decide (¬ x ∈ proc.children)) qr.children
            = qr.children := by
          apply List.filter_eq_self.mpr
          intro x hx
          simp only [decide_eq_true_eq]
          intro hxcs
          obtain ⟨xr, hxr, hxq⟩ := hWF.childMem q qr x hqr hx
          obtain ⟨xr2, hxr2, hxp2⟩ := hkidsLive x hxcs
          rw [hxr] at hxr2
          injection hxr2 with he
          subst he
          rw [hxq] at hxp2
          injection hxp2 with he2
          exact hqp he2
        have h2 : List.filter (fun x => decide (¬ x ∈ ([p] : List Nat))) qr.children
            = qr.children := by
          apply List.filter_eq_self.mpr
          intro x hx
          simp only [List.mem_singleton, decide_eq_true_eq]
          intro hxp
          subst hxp
          obtain ⟨xr, hxr, hxq⟩ := hWF.childMem q qr x hqr hx
          rw [hp] at hxr
          injection hxr with he
          subst he
          exact hqpp hxq
        rw [h1, h2]
      match hpar : proc.parent with
      | none =>
        -- no detach from a parent: just delete the row
        have hdetach : exitDetach t1 p proc = adel t1 p := exitDetach_none hpar
        refine ⟨adel t1 p, by rw [hstep, hdetach], ?_, ?_, nodup_akeys_adel hnd1,
          fun k hk => hsub1 k (mem_akeys_adel hk), ?_⟩
        · intro q hq
          by_cases hqp : q = p
          · subst hqp
            exact aget_adel_self t1 q hnd1
          · rw [aget_adel_ne t1 p q hqp]
            exact hK1 q (hExited q hq hqp)
        · intro q hq
          have hqp : q ≠ p := fun h => hq (h ▸ Reaches.refl q)
          rw [aget_adel_ne t1 p q hqp, hK2 q (hNotExQ q hq)]
          match hqr : aget t q with
          | none => rfl
          | some qr =>
            have := hNoOther q qr hqp (by rw [hpar]; intro h; exact Option.noConfusion h) hqr
            simp [this]
        · have h1 := adel_length_of_mem hpK1
          have h2 := hlen1
          omega
      | some pp =>
        obtain ⟨pprT, hppT, hppmem⟩ := hWF.parentChild p proc pp hp hpar
        have hpp0 : pp ≠ 0 := by
          have := hWF.keysPos pp (aget_mem_keys hppT)
          omega
        have hppne : pp ≠ p := by
          intro h
          exact hWF.acyclic p proc pp hp hpar (h ▸ Reaches.refl pp)
        have hNotExPP : ¬ exitedBy t proc.children pp := by
          rintro ⟨c, hc, hre⟩
          obtain ⟨cpr, hcpr, hcpp⟩ := hkidsLive c hc
          exact hWF.acyclic p proc pp hp hpar
            (Reaches.trans hre (Reaches.step cpr hcpr hcpp (Reaches.refl p)))
        have hppT1 : aget t1 pp = some (pruneKids proc.children pprT) := by
          rw [hK2 pp hNotExPP, hppT]; rfl
        have hdetach : exitDetach t1 p proc =
            adel (aset t1 pp { pruneKids proc.children pprT with
              children := childDel (pruneKids proc.children pprT).children p }) p :=
          exitDetach_some hpar hpp0 hppT1
        set v : Process := { pruneKids proc.children pprT with
          children := childDel (pruneKids proc.children pprT).children p } with hv
        set t2 : Table := aset t1 pp v with ht2
        have hnd2 : (keysOf t2).Nodup := nodup_akeys_aset hnd1
        have hkeys2 : keysOf t2 = keysOf t1 := akeys_aset_of_mem v (aget_mem_keys hppT1)
        have hpK2 : p ∈ keysOf t2 := by rw [hkeys2]; exact hpK1
        refine ⟨adel t2 p, by rw [hstep, hdetach], ?_, ?_, nodup_akeys_adel hnd2, ?_, ?_⟩
        · intro q hq
          by_cases hqp : q = p
          · subst hqp
            exact aget_adel_self t2 q hnd2
          · have hqEx := hExited q hq hqp
            have hqpp : q ≠ pp := by
              intro h
              exact hNotExPP (h ▸ hqEx)
            rw [aget_adel_ne t2 p q hqp, ht2, aget_aset_ne t1 pp q v hqpp]
            exact hK1 q hqEx
        · intro q hq
          have hqp : q ≠ p := fun h => hq (h ▸ Reaches.refl q)
          rw [aget_adel_ne t2 p q hqp]
          by_cases hqpp : q = pp
          · subst hqpp
            rw [ht2, aget_aset_self, hppT]
            -- v = pruneKids [p] pprT
            have hfil1 : List.filter (fun x => decide (¬ x ∈ proc.children)) pprT.children
                = pprT.children := by
              apply List.filter_eq_self.mpr
              intro x hx
              simp only [decide_eq_true_eq]
              intro hxcs
              obtain ⟨xr, hxr, hxq⟩ := hWF.childMem q pprT x hppT hx
              obtain ⟨xr2, hxr2, hxp2⟩ := hkidsLive x hxcs
              rw [hxr] at hxr2
              injection hxr2 with he
              subst he
              rw [hxq] at hxp2
              injection hxp2 with he2
              exact hppne he2
            have hprEq : pruneKids proc.children pprT = pprT := by
              unfold pruneKids
              rw [hfil1]
            have hfil2 : childDel pprT.children p
                = List.filter (fun x => decide (¬ x ∈ ([p] : List Nat))) pprT.children := by
              unfold childDel
              apply List.filter_congr
              intro x _
              simp
            have hfinal : v = pruneKids [p] pprT := by
              rw [hv, hprEq]
              unfold pruneKids
              rw [← hfil2]
            rw [hfinal]
            rfl
          · rw [ht2, aget_aset_ne t1 pp q v hqpp, hK2 q (hNotExQ q hq)]
            match hqr : aget t q with
            | none => rfl
            | some qr =>
              have := hNoOther q qr hqp
                (by rw [hpar]; intro h; injection h with h2; exact hqpp h2.symm) hqr
              simp [this]
        · intro k hk
          exact hsub1 k (by
            have h3 : k ∈ keysOf t2 := mem_akeys_adel hk
            rwa [hkeys2] at h3)
        · have h1 := adel_length_of_mem hpK2
          have h2 : t2.length = t1.length := aset_length_of_mem v (aget_mem_keys hppT1)
          omega
    refine ⟨hP, ?_⟩
    intro cs
    induction cs with
    | nil =>
      intro t p S hWF _ _ _ _
      refine ⟨t, by rw [exitKids], ?_, ?_, hWF.nodup, fun k hk => hk, le_refl _⟩
      · intro q hq
        exact absurd hq (exitedBy_nil t q)
      · intro q _
        match hqr : aget t q with
        | none => rfl
        | some qr => simp [pruneKids_nil]
    | cons c rest ihrest =>
      intro t p S hWF hnd hkids hS hcard
      obtain ⟨cpr, hcpr, hcp⟩ := hkids c (List.mem_cons_self c rest)
      have hcrest : c ∉ rest := (List.nodup_cons.mp hnd).1
      have hndrest : rest.Nodup := (List.nodup_cons.mp hnd).2
      obtain ⟨t1, heq1, hcA, hcB, hnd1, hsub1, hlen1⟩ :=
        hP t c cpr S hWF hcpr (hS c (List.mem_cons_self c rest)) hcard
      have hA1 : ∀ q, exitedBy t [c] q → aget t1 q = none :=
        fun q hq => hcA q (exitedBy_singleton.mp hq)
      have hB1 : ∀ q, ¬ exitedBy t [c] q → aget t1 q = (aget t q).map (pruneKids [c]) :=
        fun q hq => hcB q (fun hr => hq (exitedBy_singleton.mpr hr))
      have hWF1 : WF t1 := wf_of_subtree_removed hWF hA1 hB1 hnd1 hsub1
      have hdisj : ∀ c2 ∈ rest, ∀ x, Reaches t x c2 → ¬ Reaches t x c := by
        intro c2 hc2 x hx1 hx2
        obtain ⟨c2pr, hc2pr, hc2p⟩ := hkids c2 (List.mem_cons_of_mem c hc2)
        exact child_subtrees_disjoint hWF.acyclic hc2pr hc2p hcpr hcp
          (fun h => hcrest (h ▸ hc2)) hx1 hx2
      have hkids1 : ∀ c2 ∈ rest, ∃ c2pr, aget t1 c2 = some c2pr ∧ c2pr.parent = some p := by
        intro c2 hc2
        obtain ⟨c2pr, hc2pr, hc2p⟩ := hkids c2 (List.mem_cons_of_mem c hc2)
        have hnr : ¬ Reaches t c2 c := hdisj c2 hc2 c2 (Reaches.refl c2)
        refine ⟨pruneKids [c] c2pr, ?_, by rw [pruneKids_parent]; exact hc2p⟩
        rw [hcB c2 hnr, hc2pr]
        rfl
      have hS1 : ∀ c2 ∈ rest, ∀ x, Reaches t1 x c2 → x ∈ S := by
        intro c2 hc2 x hx
        exact hS c2 (List.mem_cons_of_mem c hc2) x
          (reaches_of_edge_sub (edge_sub_of_removed hA1 hB1) hx)
      obtain ⟨t2, heq2, hk1, hk2, hnd2, hsub2, hlen2⟩ :=
        ihrest t1 p S hWF1 hndrest hkids1 hS1 hcard
      have hstep : exitKids (fuel + 1) (c :: rest) t = (t2, none) := by
        rw [exitKids, heq1]
        dsimp only
        exact heq2
      refine ⟨t2, hstep, ?_, ?_, hnd2, fun k hk => hsub1 k (hsub2 k hk),
        le_trans hlen2 (le_of_lt hlen1)⟩
      · rintro q ⟨c2, hc2m, hre⟩
        rcases List.mem_cons.mp hc2m with hc2m | hc2m
        · subst hc2m
          have hq1 : aget t1 q = none := hcA q hre
          by_cases hx : exitedBy t1 rest q
          · exact hk1 q hx
          · rw [hk2 q hx, hq1]
            rfl
        · have htr : Reaches t1 q c2 := by
            apply reaches_map_transfer hre
            intro x hx
            exact hcB x (fun hr => hdisj c2 hc2m x hx hr)
          exact hk1 q ⟨c2, hc2m, htr⟩
      · intro q hq
        have hnc : ¬ Reaches t q c := fun h => hq ⟨c, List.mem_cons_self c rest, h⟩
        have hnr1 : ¬ exitedBy t1 rest q := by
          rintro ⟨c2, hm, hre⟩
          exact hq ⟨c2, List.mem_cons_of_mem c hm,
            reaches_of_edge_sub (edge_sub_of_removed hA1 hB1) hre⟩
        rw [hk2 q hnr1, hcB q hnc]
        match hqr : aget t q with
        | none => rfl
        | some qr => simp [pruneKids_comp]

/-! ### Running `exit` with the fuel the host uses -/

/-- The start of a chain to a live node is itself live. -/
theorem reaches_start_live {t : Table} {x p : Nat} (h : Reaches t x p) :
    (∃ pr, aget t p = some pr) → ∃ pr, aget t x = some pr := by
  cases h with
  | refl => exact id
  | step pr h1 _ _ => intro _; exact ⟨pr, h1⟩

theorem walk_ok_live {t : Table} {root f q : Nat} {b : Bool}
    (h : isInSubtreeFuel t root (f + 1) (some q) = .ok b) : ∃ pr, aget t q = some pr := by
  rw [isInSubtreeFuel] at h
  match hq : aget t q with
  | none => rw [hq] at h; simp at h
  | some pr => exact ⟨pr, rfl⟩

/-- The host's `exit(pid)` on a live pid in a well-formed table: it succeeds,
removes exactly the subtree of `pid`, prunes `pid` from the surviving rows'
child sets (only its parent actually holds it) and preserves `WF`. -/
theorem exitF_run {t : Table} {p : Nat} (hWF : WF t) (hlive : p ∈ keysOf t) :
    ∃ t', exitF (t.length + 1) p t = (t', none) ∧
      (∀ q, Reaches t q p → aget t' q = none) ∧
      (∀ q, ¬ Reaches t q p → aget t' q = (aget t q).map (pruneKids [p])) ∧
      WF t' ∧ t'.length < t.length := by
  obtain ⟨proc, hp⟩ := aget_isSome_of_mem_keys hlive
  obtain ⟨t', heq, h1, h2, hnd, hsub, hlen⟩ :=
    (exit_induction (t.length + 1)).1 t p proc (keysOf t).toFinset hWF hp
      (by
        intro x hx
        obtain ⟨xr, hxr⟩ := reaches_start_live hx ⟨proc, hp⟩
        exact List.mem_toFinset.mpr (aget_mem_keys hxr))
      (by
        have ha : (keysOf t).toFinset.card ≤ (keysOf t).length := (keysOf t).toFinset_card_le
        have hb : (keysOf t).length = t.length := List.length_map _ _
        omega)
  have hA1 : ∀ q, exitedBy t [p] q → aget t' q = none :=
    fun q hq => h1 q (exitedBy_singleton.mp hq)
  have hB1 : ∀ q, ¬ exitedBy t [p] q → aget t' q = (aget t q).map (pruneKids [p]) :=
    fun q hq => h2 q (fun hr => hq (exitedBy_singleton.mpr hr))
  exact ⟨t', heq, h1, h2, wf_of_subtree_removed hWF hA1 hB1 hnd hsub, hlen⟩

/-! ### `getPID` always finds a fresh, strictly larger pid -/

theorem countP_lt_of_mem {l : List Nat} {c : Nat} (h : (c + 1) ∈ l) :
    l.countP (fun k => decide (c + 1 < k)) < l.countP (fun k => decide (c < k)) := by
  induction l with
  | nil => simp at h
  | cons hd tl ih =>
    rw [List.countP_cons, List.countP_cons]
    have hmono : tl.countP (fun k => decide (c + 1 < k))
        ≤ tl.countP (fun k => decide (c < k)) := by
      apply List.countP_mono_left
      intro a _ ha
      simp only [decide_eq_true_eq] at ha ⊢
      omega
    rcases List.mem_cons.mp h with h | h
    · subst h
      have h1 : (decide (c + 1 < c + 1) : Bool) = false := by simp
      have h2 : (decide (c < c + 1) : Bool) = true := by simp
      rw [h1, h2]
      simp
      omega
    · have hlt := ih h
      cases hb1 : (decide (c + 1 < hd) : Bool) <;> cases hb2 : (decide (c < hd) : Bool) <;>
        simp only [decide_eq_true_eq, decide_eq_false_iff_not] at hb1 hb2 <;>
        simp <;> omega

theorem getPIDgo_total (t : Table) :
    ∀ (fuel c : Nat), (keysOf t).countP (fun k => decide (c < k)) < fuel →
      ∃ p, getPIDgo t fuel c = some p ∧ p ∉ keysOf t ∧ c < p := by
  intro fuel
  induction fuel with
  | zero => intro c h; omega
  | succ f ih =>
    intro c hcount
    rw [getPIDgo]
    by_cases hmem : (c + 1) ∈ keysOf t
    · rw [if_pos hmem]
      obtain ⟨p, hp2, hmem2, hlt2⟩ := ih (c + 1) (by
        have := countP_lt_of_mem hmem
        omega)
      exact ⟨p, hp2, hmem2, by omega⟩
    · rw [if_neg hmem]
      exact ⟨c + 1, rfl, hmem, Nat.lt_succ_self c⟩

theorem getPID_spec (t : Table) (ctr : Nat) :
    getPID t ctr ∉ keysOf t ∧ ctr < getPID t ctr := by
  have hcount : (keysOf t).countP (fun k => decide (ctr < k)) < t.length + 1 := by
    have h1 : (keysOf t).countP (fun k => decide (ctr < k)) ≤ (keysOf t).length :=
      List.countP_le_length _
    have h2 : (keysOf t).length = t.length := List.length_map _ _
    omega
  obtain ⟨p, hp, hmem, hlt⟩ := getPIDgo_total t (t.length + 1) ctr hcount
  unfold getPID
  rw [hp]
  exact ⟨hmem, hlt⟩

/-! ### Child-set helpers -/

theorem childAdd_mem_self (l : List Nat) (c : Nat) : c ∈ childAdd l c := by
  unfold childAdd
  by_cases h : c ∈ l
  · rwa [if_pos h]
  · rw [if_neg h]
    simp

theorem childAdd_mem_of (l : List Nat) (c x : Nat) (h : x ∈ l) : x ∈ childAdd l c := by
  unfold childAdd
  by_cases hm : c ∈ l
  · rwa [if_pos hm]
  · rw [if_neg hm]
    simp [h]

theorem mem_childAdd {l : List Nat} {c x : Nat} (h : x ∈ childAdd l c) : x ∈ l ∨ x = c := by
  unfold childAdd at h
  by_cases hm : c ∈ l
  · rw [if_pos hm] at h
    exact Or.inl h
  · rw [if_neg hm] at h
    rcases List.mem_append.mp h with h | h
    · exact Or.inl h
    · simp only [List.mem_singleton] at h
      exact Or.inr h

theorem childAdd_nodup {l : List Nat} {c : Nat} (h : l.Nodup) : (childAdd l c).Nodup := by
  unfold childAdd
  by_cases hm : c ∈ l
  · rwa [if_pos hm]
  · rw [if_neg hm]
    simp only [List.nodup_append, List.nodup_cons, List.nodup_nil]
    exact ⟨h, by simp, fun x hx => by
      simp only [List.mem_singleton]
      intro hxc
      subst hxc
      exact hm hx⟩

theorem mem_childDel {l : List Nat} {c x : Nat} (h : x ∈ childDel l c) : x ∈ l ∧ x ≠ c := by
  unfold childDel at h
  have := List.mem_filter.mp h
  refine ⟨this.1, ?_⟩
  have h2 := this.2
  simp only [decide_eq_true_eq] at h2
  exact h2

theorem childDel_mem_of {l : List Nat} {c x : Nat} (h : x ∈ l) (hne : x ≠ c) :
    x ∈ childDel l c := by
  unfold childDel
  apply List.mem_filter.mpr
  exact ⟨h, by simpa using hne⟩

theorem childDel_nodup {l : List Nat} {c : Nat} (h : l.Nodup) : (childDel l c).Nodup :=
  h.filter _

/-! ### Well-formedness after a reparent -/

theorem edgeAt_amod_parent_preserving {l : Table} {a : Nat} {f : Process → Process}
    (hf : ∀ pr, (f pr).parent = pr.parent) (q : Nat) : edgeAt (amod l a f) q = edgeAt l q := by
  by_cases hq : q = a
  · subst hq
    unfold edgeAt
    rw [aget_amod_self]
    match hg : aget l q with
    | none => rfl
    | some pr => simp [hf]
  · unfold edgeAt
    rw [aget_amod_ne l a q f hq]

/-- A table `t3` that agrees with `t` on every parent edge except `node`,
points `node` at a live `target` that could not reach `node`, and moves
`node` between the relevant child sets, is well-formed. -/
theorem wf_reparented {t t3 : Table} {node target : Nat} {proc trow : Process}
    (hWF : WF t) (hnode : aget t node = some proc) (htarget : aget t target = some trow)
    (hNotR : ¬ Reaches t target node)
    (ha : ∀ q, q ≠ node → edgeAt t3 q = edgeAt t q)
    (hb : ∃ nrow, aget t3 node = some nrow ∧ nrow.parent = some target)
    (hc1 : ∀ q qr' x, aget t3 q = some qr' → x ∈ qr'.children →
      (x ≠ node ∧ ∃ qr, aget t q = some qr ∧ x ∈ qr.children) ∨ (x = node ∧ q = target))
    (hc2 : ∃ trow', aget t3 target = some trow' ∧ node ∈ trow'.children)
    (hc3 : ∀ q qr qr' x, aget t q = some qr → aget t3 q = some qr' → x ∈ qr.children →
      x ≠ node → x ∈ qr'.children)
    (hd : ∀ q qr', aget t3 q = some qr' → qr'.children.Nodup)
    (he : keysOf t3 = keysOf t) : WF t3 := by
  refine ⟨he ▸ hWF.nodup, fun k hk => hWF.keysPos k (he ▸ hk), ?_, ?_, hd, ?_⟩
  · -- parentChild
    intro q qr' pp' h1 h2
    by_cases hq : q = node
    · subst hq
      obtain ⟨nrow, hn3, hnp⟩ := hb
      rw [h1] at hn3
      injection hn3 with he2
      subst he2
      rw [hnp] at h2
      injection h2 with he3
      subst he3
      obtain ⟨trow', ht3, hmem⟩ := hc2
      exact ⟨trow', ht3, hmem⟩
    · have hedge : edgeAt t q = some (some pp') := by
        rw [← ha q hq]
        exact edgeAt_eq_some h1 h2
      obtain ⟨qr, hqr, hqpar⟩ := edgeAt_some hedge
      obtain ⟨pprow, hpprow, hqmem⟩ := hWF.parentChild q qr pp' hqr hqpar
      have hppk : pp' ∈ keysOf t3 := by
        rw [he]
        exact aget_mem_keys hpprow
      obtain ⟨pprow', hpp3⟩ := aget_isSome_of_mem_keys hppk
      exact ⟨pprow', hpp3, hc3 pp' pprow pprow' q hpprow hpp3 hqmem hq⟩
  · -- childMem
    intro q qr' x h1 hx
    rcases hc1 q qr' x h1 hx with ⟨hxn, qr, hqr, hxm⟩ | ⟨hxn, hqt⟩
    · obtain ⟨xr, hxr, hxp⟩ := hWF.childMem q qr x hqr hxm
      have hxk : x ∈ keysOf t3 := by
        rw [he]
        exact aget_mem_keys hxr
      obtain ⟨xr', hx3⟩ := aget_isSome_of_mem_keys hxk
      refine ⟨xr', hx3, ?_⟩
      have hedge : edgeAt t3 x = edgeAt t x := ha x hxn
      unfold edgeAt at hedge
      rw [hx3, hxr] at hedge
      simp only [Option.map_some', Option.some.injEq] at hedge
      rw [hedge, hxp]
    · subst hxn
      subst hqt
      obtain ⟨nrow, hn3, hnp⟩ := hb
      exact ⟨nrow, hn3, hnp⟩
  · -- acyclic
    obtain ⟨nrow, hn3, hnp⟩ := hb
    exact acyclic_reparent ha (edgeAt_eq_some hn3 hnp) hNotR hWF.acyclic

theorem edgeAt_congr {l l' : Table} {q : Nat} (h : aget l q = aget l' q) :
    edgeAt l q = edgeAt l' q := by
  unfold edgeAt
  rw [h]

theorem reparentInner_noparent {t : Table} {node target : Nat} {proc : Process}
    (hnode : aget t node = some proc) (hmem : target ∈ keysOf t) (ht0 : target ≠ 0)
    (hpar : proc.parent = none) :
    reparentInner t node (some target)
      = (amod (amod t target (fun o => { o with children := childAdd o.children node })) node
          (fun o => { o with parent := some target }), none) := by
  unfold reparentInner
  rw [hnode]
  dsimp only
  rw [hpar]
  simp only [truthyPid, ne_eq, ht0, not_false_eq_true, decide_True, decide_not, hmem,
    Bool.not_true, Bool.false_eq_true, if_false, if_true]

theorem reparentInner_parent {t : Table} {node target pp : Nat} {proc pprow : Process}
    (hnode : aget t node = some proc) (hmem : target ∈ keysOf t) (ht0 : target ≠ 0)
    (hpar : proc.parent = some pp) (hpp0 : pp ≠ 0) (hpprow : aget t pp = some pprow) :
    reparentInner t node (some target)
      = (amod (amod (amod (aset t pp { pprow with children := childDel pprow.children node })
            node (fun o => { o with parent := none }))
          target (fun o => { o with children := childAdd o.children node })) node
          (fun o => { o with parent := some target }), none) := by
  unfold reparentInner
  rw [hnode]
  dsimp only
  rw [hpar]
  simp only [truthyPid, ne_eq, ht0, hpp0, not_false_eq_true, decide_True, decide_not, hmem,
    Bool.not_true, Bool.false_eq_true, if_false, if_true]
  rw [hpprow]

/-- `reparent(node, target)` on live rows with the cycle guard satisfied:
it succeeds and the table stays well-formed with the same pid set. -/
theorem reparentInner_run {t : Table} {node target : Nat} {proc trow : Process}
    (hWF : WF t) (hnode : aget t node = some proc) (htarget : aget t target = some trow)
    (hNotR : ¬ Reaches t target node) :
    ∃ t3, reparentInner t node (some target) = (t3, none) ∧ WF t3 ∧ keysOf t3 = keysOf t ∧
      (∀ q, (aget t3 q).map Process.name = (aget t q).map Process.name) := by
  have hne_tn : target ≠ node := fun h => hNotR (h ▸ Reaches.refl target)
  have htk : target ∈ keysOf t := aget_mem_keys htarget
  have ht0 : target ≠ 0 := by
    have := hWF.keysPos target htk
    omega
  have hchildNe : ∀ q qr, aget t q = some qr → node ∈ qr.children → proc.parent = some q := by
    intro q qr hq hx
    obtain ⟨xr, hxr, hxp⟩ := hWF.childMem q qr node hq hx
    rw [hnode] at hxr
    injection hxr with he5
    subst he5
    exact hxp
  have hnode_not_self : node ∉ proc.children := by
    intro hmem
    have hp2 := hchildNe node proc hnode hmem
    exact hWF.acyclic node proc node hnode hp2 (Reaches.refl node)
  match hpar : proc.parent with
  | none =>
    set fAdd : Process → Process := fun o => { o with children := childAdd o.children node }
      with hfAdd
    set fPar : Process → Process := fun o => { o with parent := some target } with hfPar
    set t2 : Table := amod t target fAdd with ht2
    set t3 : Table := amod t2 node fPar with ht3
    have hkeys : keysOf t3 = keysOf t := by
      rw [ht3, ht2]
      unfold keysOf
      rw [akeys_amod, akeys_amod]
    have hn2 : aget t2 node = some proc := by
      rw [ht2, aget_amod_ne t target node fAdd (Ne.symm hne_tn)]
      exact hnode
    have hn3 : aget t3 node = some (fPar proc) := by
      rw [ht3, aget_amod_self, hn2]
      rfl
    have htg3 : aget t3 target = some (fAdd trow) := by
      rw [ht3, aget_amod_ne t2 node target fPar hne_tn, ht2, aget_amod_self, htarget]
      rfl
    have hoth : ∀ q, q ≠ node → q ≠ target → aget t3 q = aget t q := by
      intro q h1 h2
      rw [ht3, aget_amod_ne t2 node q fPar h1, ht2, aget_amod_ne t target q fAdd h2]
    refine ⟨t3, reparentInner_noparent hnode htk ht0 hpar, ?_, hkeys, ?_⟩
    case refine_2 =>
      intro q
      by_cases hq : q = node
      · rw [hq, hn3, hnode]
        rfl
      · by_cases hqt : q = target
        · rw [hqt, htg3, htarget]
          rfl
        · rw [hoth q hq hqt]
    refine wf_reparented hWF hnode htarget hNotR ?_ ⟨fPar proc, hn3, rfl⟩ ?_ ?_ ?_ ?_ hkeys
    · intro q hq
      have e1 : edgeAt t3 q = edgeAt t2 q :=
        edgeAt_congr (by rw [ht3, aget_amod_ne t2 node q fPar hq])
      have e2 : edgeAt t2 q = edgeAt t q := by
        rw [ht2]
        apply edgeAt_amod_parent_preserving
        intro pr
        rfl
      rw [e1, e2]
    · intro q qr' x h1 hx
      by_cases hq : q = node
      · subst hq
        rw [hn3] at h1
        injection h1 with he6
        subst he6
        have hx2 : x ∈ proc.children := hx
        refine Or.inl ⟨?_, proc, hnode, hx2⟩
        intro hxe
        rw [hxe] at hx2
        exact hnode_not_self hx2
      · by_cases hqt : q = target
        · subst hqt
          rw [htg3] at h1
          injection h1 with he6
          subst he6
          rcases mem_childAdd hx with hx2 | hx2
          · refine Or.inl ⟨?_, trow, htarget, hx2⟩
            intro hxe
            rw [hxe] at hx2
            have hcc := hchildNe _ trow htarget hx2
            rw [hpar] at hcc
            exact Option.noConfusion hcc
          · exact Or.inr ⟨hx2, rfl⟩
        · rw [hoth q hq hqt] at h1
          refine Or.inl ⟨?_, qr', h1, hx⟩
          intro hxe
          rw [hxe] at hx
          have hcc := hchildNe _ qr' h1 hx
          rw [hpar] at hcc
          exact Option.noConfusion hcc
    · exact ⟨fAdd trow, htg3, childAdd_mem_self trow.children node⟩
    · intro q qr qr' x hq h3 hxm hxn
      by_cases hqn : q = node
      · subst hqn
        rw [hnode] at hq
        injection hq with he7
        subst he7
        rw [hn3] at h3
        injection h3 with he8
        subst he8
        exact hxm
      · by_cases hqt : q = target
        · subst hqt
          rw [htarget] at hq
          injection hq with he7
          subst he7
          rw [htg3] at h3
          injection h3 with he8
          subst he8
          exact childAdd_mem_of _ _ _ hxm
        · rw [hoth q hqn hqt, hq] at h3
          injection h3 with he8
          subst he8
          exact hxm
    · intro q qr' h1
      by_cases hq : q = node
      · subst hq
        rw [hn3] at h1
        injection h1 with he6
        subst he6
        exact hWF.childNodup _ proc hnode
      · by_cases hqt : q = target
        · subst hqt
          rw [htg3] at h1
          injection h1 with he6
          subst he6
          exact childAdd_nodup (hWF.childNodup _ trow htarget)
        · rw [hoth q hq hqt] at h1
          exact hWF.childNodup q qr' h1
  | some pp =>
    obtain ⟨pprow, hpprow, hppmem⟩ := hWF.parentChild node proc pp hnode hpar
    have hppk : pp ∈ keysOf t := aget_mem_keys hpprow
    have hpp0 : pp ≠ 0 := by
      have := hWF.keysPos pp hppk
      omega
    have hppnode : pp ≠ node := fun h =>
      hWF.acyclic node proc pp hnode hpar (h ▸ Reaches.refl pp)
    set vDel : Process := { pprow with children := childDel pprow.children node } with hvDel
    set fNone : Process → Process := fun o => { o with parent := none } with hfNone
    set fAdd : Process → Process := fun o => { o with children := childAdd o.children node }
      with hfAdd
    set fPar : Process → Process := fun o => { o with parent := some target } with hfPar
    set t1 : Table := aset t pp vDel with ht1
    set tD : Table := amod t1 node fNone with htD
    set t2 : Table := amod tD target fAdd with ht2
    set t3 : Table := amod t2 node fPar with ht3
    have ht1amod : t1 = amod t pp (fun o => { o with children := childDel o.children node }) := by
      rw [ht1]
      unfold amod
      rw [hpprow]
    have hkeys1 : keysOf t1 = keysOf t := akeys_aset_of_mem vDel hppk
    have hkeys : keysOf t3 = keysOf t := by
      rw [ht3, ht2, htD]
      unfold keysOf
      rw [akeys_amod, akeys_amod, akeys_amod]
      exact hkeys1
    have hn1 : aget t1 node = some proc := by
      rw [ht1, aget_aset_ne t pp node vDel (Ne.symm hppnode)]
      exact hnode
    have hnD : aget tD node = some (fNone proc) := by
      rw [htD, aget_amod_self, hn1]
      rfl
    have hn2 : aget t2 node = some (fNone proc) := by
      rw [ht2, aget_amod_ne tD target node fAdd (Ne.symm hne_tn)]
      exact hnD
    have hn3 : aget t3 node = some (fPar (fNone proc)) := by
      rw [ht3, aget_amod_self, hn2]
      rfl
    -- the target's row in t1 (it may or may not be the old parent)
    obtain ⟨w, hw1, hwBack, hwKeep, hwNodup, hwName⟩ :
        ∃ w, aget t1 target = some w ∧
          (∀ x, x ∈ w.children → x ≠ node ∧ x ∈ trow.children) ∧
          (∀ x, x ∈ trow.children → x ≠ node → x ∈ w.children) ∧ w.children.Nodup ∧
          w.name = trow.name := by
      by_cases htp : target = pp
      · have htrow : trow = pprow := by
          have h10 : aget t pp = some trow := by
            rw [← htp]
            exact htarget
          have h11 := h10.symm.trans hpprow
          exact Option.some.inj h11
        refine ⟨vDel, ?_, ?_, ?_, ?_, ?_⟩
        · rw [ht1, htp, aget_aset_self]
        · intro x hx
          have := mem_childDel hx
          exact ⟨this.2, by rw [htrow]; exact this.1⟩
        · intro x hx hxn
          exact childDel_mem_of (by rw [← htrow]; exact hx) hxn
        · exact childDel_nodup (hWF.childNodup pp pprow hpprow)
        · rw [htrow]
      · refine ⟨trow, ?_, ?_, fun x hx _ => hx, hWF.childNodup target trow htarget, rfl⟩
        · rw [ht1, aget_aset_ne t pp target vDel htp]
          exact htarget
        · intro x hx
          refine ⟨?_, hx⟩
          intro hxe
          rw [hxe] at hx
          have hcc := hchildNe target trow htarget hx
          rw [hpar] at hcc
          injection hcc with he9
          exact htp he9.symm
    have htgD : aget tD target = some w := by
      rw [htD, aget_amod_ne t1 node target fNone hne_tn]
      exact hw1
    have htg2 : aget t2 target = some (fAdd w) := by
      rw [ht2, aget_amod_self, htgD]
      rfl
    have htg3 : aget t3 target = some (fAdd w) := by
      rw [ht3, aget_amod_ne t2 node target fPar hne_tn]
      exact htg2
    have hoth : ∀ q, q ≠ node → q ≠ target → q ≠ pp → aget t3 q = aget t q := by
      intro q h1 h2 h3
      rw [ht3, aget_amod_ne t2 node q fPar h1, ht2, aget_amod_ne tD target q fAdd h2,
        htD, aget_amod_ne t1 node q fNone h1, ht1, aget_aset_ne t pp q vDel h3]
    have hppRow3 : ∀ hptne : pp ≠ target, aget t3 pp = some vDel := by
      intro hptne
      rw [ht3, aget_amod_ne t2 node pp fPar hppnode, ht2,
        aget_amod_ne tD target pp fAdd hptne, htD, aget_amod_ne t1 node pp fNone hppnode,
        ht1, aget_aset_self]
    refine ⟨t3, reparentInner_parent hnode htk ht0 hpar hpp0 hpprow, ?_, hkeys, ?_⟩
    case refine_2 =>
      intro q
      by_cases hq : q = node
      · rw [hq, hn3, hnode]
        rfl
      · by_cases hqt : q = target
        · rw [hqt, htg3, htarget]
          simp only [Option.map_some']
          rw [show (fAdd w).name = w.name from rfl, hwName]
        · by_cases hqpp : q = pp
          · rw [hqpp, hppRow3 (fun h => hqt (hqpp.trans h)), hpprow]
            rfl
          · rw [hoth q hq hqt hqpp]
    refine wf_reparented hWF hnode htarget hNotR ?_ ⟨fPar (fNone proc), hn3, rfl⟩ ?_ ?_ ?_ ?_ hkeys
    · intro q hq
      have e3 : edgeAt t3 q = edgeAt t2 q :=
        edgeAt_congr (by rw [ht3, aget_amod_ne t2 node q fPar hq])
      have e2 : edgeAt t2 q = edgeAt tD q := by
        rw [ht2]
        apply edgeAt_amod_parent_preserving
        intro pr
        rfl
      have eD : edgeAt tD q = edgeAt t1 q :=
        edgeAt_congr (by rw [htD, aget_amod_ne t1 node q fNone hq])
      have e1 : edgeAt t1 q = edgeAt t q := by
        rw [ht1amod]
        apply edgeAt_amod_parent_preserving
        intro pr
        rfl
      rw [e3, e2, eD, e1]
    · intro q qr' x h1 hx
      by_cases hq : q = node
      · subst hq
        rw [hn3] at h1
        injection h1 with he6
        subst he6
        have hx2 : x ∈ proc.children := hx
        refine Or.inl ⟨?_, proc, hnode, hx2⟩
        intro hxe
        rw [hxe] at hx2
        exact hnode_not_self hx2
      · by_cases hqt : q = target
        · subst hqt
          rw [htg3] at h1
          injection h1 with he6
          subst he6
          rcases mem_childAdd hx with hx2 | hx2
          · obtain ⟨hxn, hxt⟩ := hwBack x hx2
            exact Or.inl ⟨hxn, trow, htarget, hxt⟩
          · exact Or.inr ⟨hx2, rfl⟩
        · by_cases hqpp : q = pp
          · subst hqpp
            rw [hppRow3 hqt] at h1
            injection h1 with he6
            subst he6
            have hx2 := mem_childDel hx
            exact Or.inl ⟨hx2.2, pprow, hpprow, hx2.1⟩
          · rw [hoth q hq hqt hqpp] at h1
            refine Or.inl ⟨?_, qr', h1, hx⟩
            intro hxe
            rw [hxe] at hx
            have hcc := hchildNe _ qr' h1 hx
            rw [hpar] at hcc
            injection hcc with he9
            exact hqpp he9.symm
    · exact ⟨fAdd w, htg3, childAdd_mem_self w.children node⟩
    · intro q qr qr' x hq h3 hxm hxn
      by_cases hqn : q = node
      · subst hqn
        rw [hnode] at hq
        injection hq with he7
        subst he7
        rw [hn3] at h3
        injection h3 with he8
        subst he8
        exact hxm
      · by_cases hqt : q = target
        · subst hqt
          rw [htarget] at hq
          injection hq with he7
          subst he7
          rw [htg3] at h3
          injection h3 with he8
          subst he8
          exact childAdd_mem_of _ _ _ (hwKeep x hxm hxn)
        · by_cases hqpp : q = pp
          · subst hqpp
            rw [hpprow] at hq
            injection hq with he7
            subst he7
            rw [hppRow3 hqt] at h3
            injection h3 with he8
            subst he8
            exact childDel_mem_of hxm hxn
          · rw [hoth q hqn hqt hqpp, hq] at h3
            injection h3 with he8
            subst he8
            exact hxm
    · intro q qr' h1
      by_cases hq : q = node
      · subst hq
        rw [hn3] at h1
        injection h1 with he6
        subst he6
        exact hWF.childNodup _ proc hnode
      · by_cases hqt : q = target
        · subst hqt
          rw [htg3] at h1
          injection h1 with he6
          subst he6
          exact childAdd_nodup hwNodup
        · by_cases hqpp : q = pp
          · subst hqpp
            rw [hppRow3 hqt] at h1
            injection h1 with he6
            subst he6
            exact childDel_nodup (hWF.childNodup _ pprow hpprow)
          · rw [hoth q hq hqt hqpp] at h1
            exact hWF.childNodup q qr' h1

/-- Inserting a fresh node whose parent is an old node keeps acyclicity. -/
theorem acyclic_insert_fresh {t t' : Table} {pid c : Nat}
    (ha : ∀ q, q ≠ pid → edgeAt t' q = edgeAt t q)
    (hb : ∀ q pr, aget t q = some pr → pr.parent ≠ some pid)
    (hc : edgeAt t' pid = some (some c)) (hcp : c ≠ pid)
    (hA : AcyclicR t) : AcyclicR t' := by
  intro p pr' q h1 h2 hre
  by_cases hp : p = pid
  · subst hp
    have he : edgeAt t' p = some (some q) := edgeAt_eq_some h1 h2
    rw [hc] at he
    injection he with he2
    injection he2 with he3
    obtain ⟨_, hne⟩ := reaches_avoid_fresh ha hb hre (by rw [← he3]; exact hcp)
    exact hne rfl
  · have he : edgeAt t p = some (some q) := by
      rw [← ha p hp]
      exact edgeAt_eq_some h1 h2
    obtain ⟨pr, hpr, hpar⟩ := edgeAt_some he
    have hq : q ≠ pid := by
      intro hmp
      subst hmp
      exact hb p pr hpr hpar
    obtain ⟨hre2, _⟩ := reaches_avoid_fresh ha hb hre hq
    exact hA p pr q hpr hpar hre2

/-! ### Well-formedness after `start` -/

/-- Inserting a fresh pid as a child of a live caller preserves `WF`. -/
theorem wf_inserted {tb t2 : Table} {pid c port : Nat}
    (hWF : WF tb) (hfresh : pid ∉ keysOf tb) (hpid0 : pid ≠ 0) {crow : Process}
    (hcrow : aget tb c = some crow) (hcpid : c ≠ pid)
    (hnew : aget t2 pid = some ⟨port, some c, [], none⟩)
    (hcrow2 : aget t2 c = some { crow with children := childAdd crow.children pid })
    (hoth : ∀ q, q ≠ pid → q ≠ c → aget t2 q = aget tb q)
    (hkeys : keysOf t2 = keysOf tb ++ [pid]) : WF t2 := by
  have hrow2 : ∀ q qr, q ≠ pid → aget tb q = some qr →
      ∃ qr2, aget t2 q = some qr2 ∧ qr2.parent = qr.parent ∧
        (∀ x, x ∈ qr.children → x ∈ qr2.children) ∧
        (∀ x, x ∈ qr2.children → x ∈ qr.children ∨ x = pid) ∧
        (qr.children.Nodup → qr2.children.Nodup) := by
    intro q qr hq hqr
    by_cases hqc : q = c
    · subst hqc
      rw [hqr] at hcrow
      injection hcrow with he
      subst he
      refine ⟨_, hcrow2, rfl, ?_, ?_, ?_⟩
      · intro x hx
        exact childAdd_mem_of _ _ _ hx
      · intro x hx
        exact mem_childAdd hx
      · intro hnd
        exact childAdd_nodup hnd
    · refine ⟨qr, ?_, rfl, fun x hx => hx, fun x hx => Or.inl hx, fun h => h⟩
      rw [hoth q hq hqc]
      exact hqr
  refine ⟨?_, ?_, ?_, ?_, ?_, ?_⟩
  · rw [hkeys]
    simp only [List.nodup_append, List.nodup_cons, List.nodup_nil]
    exact ⟨hWF.nodup, by simp, fun x hx => by
      simp only [List.mem_singleton]
      intro hxp
      subst hxp
      exact hfresh hx⟩
  · intro k hk
    rw [hkeys] at hk
    rcases List.mem_append.mp hk with hk | hk
    · exact hWF.keysPos k hk
    · simp only [List.mem_singleton] at hk
      subst hk
      omega
  · -- parentChild
    intro q qr' pp' h1 h2
    by_cases hq : q = pid
    · subst hq
      rw [hnew] at h1
      injection h1 with he
      subst he
      injection h2 with he2
      subst he2
      refine ⟨_, hcrow2, ?_⟩
      exact childAdd_mem_self crow.children _
    · have hq1 : aget tb q = some qr' ∨ ∃ qr, aget tb q = some qr ∧
          qr' = { qr with children := childAdd qr.children pid } ∧ q = c := by
        by_cases hqc : q = c
        · subst hqc
          rw [hcrow2] at h1
          injection h1 with he
          exact Or.inr ⟨crow, hcrow, he.symm, rfl⟩
        · rw [hoth q hq hqc] at h1
          exact Or.inl h1
      have hedge : ∃ qr, aget tb q = some qr ∧ qr.parent = some pp' := by
        rcases hq1 with h3 | ⟨qr, h3, h4, _⟩
        · exact ⟨qr', h3, h2⟩
        · refine ⟨qr, h3, ?_⟩
          rw [h4] at h2
          exact h2
      obtain ⟨qr, h3, h4⟩ := hedge
      obtain ⟨pprow, hpprow, hmem⟩ := hWF.parentChild q qr pp' h3 h4
      have hppid : pp' ≠ pid := by
        intro he
        subst he
        exact hfresh (aget_mem_keys hpprow)
      obtain ⟨pprow2, hpp2, _, hup, _, _⟩ := hrow2 pp' pprow hppid hpprow
      exact ⟨pprow2, hpp2, hup q hmem⟩
  · -- childMem
    intro q qr' x h1 hx
    by_cases hq : q = pid
    · subst hq
      rw [hnew] at h1
      injection h1 with he
      subst he
      simp at hx
    · have hq1 : (∃ qr, aget tb q = some qr ∧
          (∀ y, y ∈ qr'.children → y ∈ qr.children ∨ y = pid)) := by
        by_cases hqc : q = c
        · subst hqc
          rw [hcrow2] at h1
          injection h1 with he
          refine ⟨crow, hcrow, ?_⟩
          intro y hy
          rw [← he] at hy
          exact mem_childAdd hy
        · rw [hoth q hq hqc] at h1
          exact ⟨qr', h1, fun y hy => Or.inl hy⟩
      obtain ⟨qr, h3, h4⟩ := hq1
      rcases h4 x hx with hx2 | hx2
      · obtain ⟨xr, hxr, hxp⟩ := hWF.childMem q qr x h3 hx2
        have hxpid : x ≠ pid := by
          intro he
          subst he
          exact hfresh (aget_mem_keys hxr)
        obtain ⟨xr2, hxr2, hpar2, _, _, _⟩ := hrow2 x xr hxpid hxr
        refine ⟨xr2, hxr2, ?_⟩
        rw [hpar2, hxp]
      · subst hx2
        -- x = pid: only the caller holds the fresh pid
        have hqc : q = c := by
          by_cases hqc : q = c
          · exact hqc
          · rw [hoth q hq hqc] at h1
            obtain ⟨xr, hxr, _⟩ := hWF.childMem q qr' x h1 hx
            exact absurd (aget_mem_keys hxr) hfresh
        subst hqc
        exact ⟨_, hnew, rfl⟩
  · -- childNodup
    intro q qr' h1
    by_cases hq : q = pid
    · subst hq
      rw [hnew] at h1
      injection h1 with he
      subst he
      simp
    · by_cases hqc : q = c
      · subst hqc
        rw [hcrow2] at h1
        injection h1 with he
        subst he
        exact childAdd_nodup (hWF.childNodup _ crow hcrow)
      · rw [hoth q hq hqc] at h1
        exact hWF.childNodup q qr' h1
  · -- acyclic
    refine acyclic_insert_fresh ?_ ?_ (edgeAt_eq_some hnew rfl) hcpid hWF.acyclic
    · intro q hq
      by_cases hqc : q = c
      · subst hqc
        unfold edgeAt
        rw [hcrow2, hcrow]
        rfl
      · exact edgeAt_congr (hoth q hq hqc)
    · intro q pr hq hpar
      obtain ⟨pprow, hpprow, _⟩ := hWF.parentChild q pr pid hq hpar
      exact hfresh (aget_mem_keys hpprow)

theorem apiStart_live {st : HostSt} {c port : Nat} {crow : Process}
    (hc : c ≠ 0) (hlk : aget st.table c = some crow) :
    apiStart c port st =
      ({ st with
          table := amod (aset st.table (getPID st.table st.ctr)
              ⟨port, some c, [], none⟩) c
            (fun pr => { pr with children := childAdd pr.children (getPID st.table st.ctr) }),
          ctr := getPID st.table st.ctr }, none, some (getPID st.table st.ctr)) := by
  unfold apiStart
  simp only [ne_eq, hc, not_false_eq_true, if_true, hlk, Option.isSome_some, if_false,
    reduceCtorEq, and_false]

theorem apiStart_dead {st : HostSt} {c port : Nat}
    (hc : c ≠ 0) (hlk : aget st.table c = none) :
    apiStart c port st = (st, some .notFound, none) := by
  unfold apiStart
  simp only [ne_eq, hc, not_false_eq_true, if_true, hlk, and_self, if_false]

/-- The API-bound `start` with a positive caller keeps the table well-formed
and never decreases `idCounter`. -/
theorem apiStart_wf {st : HostSt} {c port : Nat} (hWF : WF st.table) (hc : c ≠ 0) :
    WF (apiStart c port st).1.table ∧ st.ctr ≤ (apiStart c port st).1.ctr := by
  match hlk : aget st.table c with
  | none =>
    rw [apiStart_dead hc hlk]
    exact ⟨hWF, le_refl _⟩
  | some crow =>
    rw [apiStart_live hc hlk]
    obtain ⟨hfresh, hlt⟩ := getPID_spec st.table st.ctr
    refine ⟨?_, le_of_lt hlt⟩
    dsimp only
    set pid := getPID st.table st.ctr with hpid
    set nrow : Process := ⟨port, some c, [], none⟩ with hnrow
    set t1 : Table := aset st.table pid nrow with ht1
    have hcpid : c ≠ pid := by
      intro h
      exact hfresh (h ▸ aget_mem_keys hlk)
    have hpid0 : pid ≠ 0 := by omega
    set f2 : Process → Process := fun pr => { pr with children := childAdd pr.children pid }
      with hf2
    have hnew : aget (amod t1 c f2) pid = some nrow := by
      rw [aget_amod_ne t1 c pid f2 (fun h => hcpid h.symm), ht1, aget_aset_self]
    have hcrow2 : aget (amod t1 c f2) c
        = some { crow with children := childAdd crow.children pid } := by
      rw [aget_amod_self, ht1, aget_aset_ne st.table pid c nrow hcpid, hlk]
      rfl
    have hoth2 : ∀ q, q ≠ pid → q ≠ c → aget (amod t1 c f2) q = aget st.table q := by
      intro q hq hqc
      rw [aget_amod_ne t1 c q f2 hqc, ht1, aget_aset_ne st.table pid q nrow hq]
    have hkeys2 : keysOf (amod t1 c f2) = keysOf st.table ++ [pid] := by
      unfold keysOf
      rw [akeys_amod, ht1]
      exact akeys_aset_of_not_mem nrow hfresh
    exact wf_inserted hWF hfresh hpid0 hlk hcpid hnew hcrow2 hoth2 hkeys2

/-- The API-bound `exit` keeps the table well-formed: on an authority or
lookup failure the table is untouched, and on success the removed set is a
whole subtree. -/
theorem apiExit_wf {t : Table} {c tgt : Nat} (hWF : WF t) : WF (apiExit c tgt t).1 := by
  unfold apiExit
  match hg : isInSubtree t tgt c with
  | .error e => exact hWF
  | .ok false => exact hWF
  | .ok true =>
    have hg2 : isInSubtreeFuel t c (t.length + 1) (some tgt) = .ok true := hg
    have hre : Reaches t tgt c := walk_true_reaches t c (t.length + 1) tgt hg2
    obtain ⟨tr, htr⟩ := walk_ok_live hg2
    obtain ⟨cr, hcr⟩ := reaches_live hWF.parentLive hre ⟨tr, htr⟩
    obtain ⟨t', heq, _, _, hWF', _⟩ := exitF_run hWF (aget_mem_keys hcr)
    rw [heq]
    exact hWF'

/-- The API-bound `reparent` keeps the table well-formed: every failing
branch leaves the table untouched and the mutating branch runs only after
the guard has ruled out a cycle. -/
theorem apiReparent_wf {t : Table} {c node target : Nat} (hWF : WF t) :
    WF (apiReparent c node target t).1 := by
  unfold apiReparent
  match hg1 : isInSubtree t node c with
  | .error e => exact hWF
  | .ok false => exact hWF
  | .ok true =>
    match hg2 : isInSubtree t target node with
    | .error e => exact hWF
    | .ok true => exact hWF
    | .ok false =>
      have hg1f : isInSubtreeFuel t c (t.length + 1) (some node) = .ok true := hg1
      have hg2f : isInSubtreeFuel t node (t.length + 1) (some target) = .ok false := hg2
      obtain ⟨proc, hproc⟩ := walk_ok_live hg1f
      obtain ⟨trow, htrow⟩ := walk_ok_live hg2f
      have hNotR : ¬ Reaches t target node := walk_false_not_reaches hg2f
      obtain ⟨t3, heq, hWF3, _⟩ := reparentInner_run hWF hproc htrow hNotR
      rw [heq]
      exact hWF3

/-- One API call preserves well-formedness and never decreases `idCounter`. -/
theorem stepOp_wf {op : Op} {st : HostSt} (hWF : WF st.table) (hv : validOp op = true) :
    WF (stepOp op st).1.table ∧ st.ctr ≤ (stepOp op st).1.ctr := by
  match op with
  | .start c port =>
    have hc : c ≠ 0 := by
      unfold validOp at hv
      simp only [decide_eq_true_eq] at hv
      omega
    unfold stepOp
    exact apiStart_wf hWF hc
  | .reparent c node tgt =>
    unfold stepOp
    exact ⟨apiReparent_wf hWF, le_refl _⟩
  | .exit c tgt =>
    unfold stepOp
    exact ⟨apiExit_wf hWF, le_refl _⟩

/-- Any sequence of valid API calls preserves well-formedness. -/
theorem runOps_wf {ops : List Op} :
    ∀ {st : HostSt}, WF st.table → (∀ op ∈ ops, validOp op = true) →
      WF (runOps ops st).table := by
  induction ops with
  | nil => intro st hWF _; exact hWF
  | cons op rest ih =>
    intro st hWF hv
    have h1 := (stepOp_wf hWF (hv op (List.mem_cons_self op rest))).1
    unfold runOps
    rw [List.foldl_cons]
    exact ih h1 (fun o ho => hv o (List.mem_cons_of_mem op ho))

/-- `idCounter` never decreases under any API call (`getPID` only advances). -/
theorem stepOp_ctr (op : Op) (st : HostSt) : st.ctr ≤ (stepOp op st).1.ctr := by
  match op with
  | .start c port =>
    unfold stepOp
    dsimp only
    unfold apiStart
    dsimp only
    by_cases hcond : (c ≠ 0 ∧ (if c ≠ 0 then aget st.table c else none) = none)
    · rw [if_pos hcond]
    · rw [if_neg hcond]
      have := (getPID_spec st.table st.ctr).2
      dsimp only
      omega
  | .reparent c node tgt => exact Nat.le_refl _
  | .exit c tgt => exact Nat.le_refl _

/-! ### A decidable well-formedness check, for concrete tables -/

/-- Check a condition on the payload of an optional value (`true` on `none`). -/
def optCheck {α : Type} (o : Option α) (f : α → Bool) : Bool :=
  match o with
  | none => true
  | some a => f a

@[simp] theorem optCheck_none {α : Type} (f : α → Bool) : optCheck none f = true := rfl

@[simp] theorem optCheck_some {α : Type} (a : α) (f : α → Bool) :
    optCheck (some a) f = f a := rfl

/-- Check a condition on the row bound at a key (`false` when absent). -/
def getCheck {α β : Type} [DecidableEq α] (l : List (α × β)) (a : α) (f : β → Bool) : Bool :=
  match aget l a with
  | none => false
  | some b => f b

theorem getCheck_eq_true {α β : Type} [DecidableEq α] {l : List (α × β)} {a : α}
    {f : β → Bool} (h : getCheck l a f = true) : ∃ b, aget l a = some b ∧ f b = true := by
  unfold getCheck at h
  match hg : aget l a with
  | none => rw [hg] at h; exact absurd h (by simp)
  | some b => rw [hg] at h; exact ⟨b, rfl, h⟩

/-- Check that a walk result is exactly `ok false`. -/
def okFalse : Except Err Bool → Bool
  | .ok false => true
  | _ => false

theorem okFalse_eq {e : Except Err Bool} (h : okFalse e = true) : e = .ok false := by
  match e with
  | .ok false => rfl
  | .ok true => exact absurd h (by simp [okFalse])
  | .error _ => exact absurd h (by simp [okFalse])

/-- Acyclicity check: no row's parent can walk back to the row. -/
def acyclicB (t : Table) : Bool :=
  t.all (fun pr => optCheck pr.2.parent (fun pp => okFalse (isInSubtree t pp pr.1)))

/-- Executable conjunction of the `WF` clauses. -/
def wfB (t : Table) : Bool :=
  decide ((keysOf t).Nodup) &&
  (keysOf t).all (fun k => decide (1 ≤ k)) &&
  t.all (fun pr => optCheck pr.2.parent
    (fun pp => getCheck t pp (fun ppr => decide (pr.1 ∈ ppr.children)))) &&
  t.all (fun pr => pr.2.children.all
    (fun c => getCheck t c (fun cpr => decide (cpr.parent = some pr.1)))) &&
  t.all (fun pr => decide pr.2.children.Nodup) &&
  acyclicB t

theorem acyclicR_of_B {t : Table} (h : acyclicB t = true) : AcyclicR t := by
  intro p pr q h1 h2 hre
  have hbody := List.all_eq_true.mp h (p, pr) (aget_mem h1)
  dsimp only at hbody
  rw [h2] at hbody
  simp only [optCheck_some] at hbody
  exact walk_false_not_reaches (okFalse_eq hbody) hre

theorem WF_of_wfB {t : Table} (h : wfB t = true) : WF t := by
  unfold wfB at h
  simp only [Bool.and_eq_true] at h
  obtain ⟨⟨⟨⟨⟨h1, h2⟩, h3⟩, h4⟩, h5⟩, h6⟩ := h
  refine ⟨of_decide_eq_true h1, ?_, ?_, ?_, ?_, acyclicR_of_B h6⟩
  · intro k hk
    exact of_decide_eq_true (List.all_eq_true.mp h2 k hk)
  · intro p pr pp hg hpar
    have hbody := List.all_eq_true.mp h3 (p, pr) (aget_mem hg)
    dsimp only at hbody
    rw [hpar] at hbody
    simp only [optCheck_some] at hbody
    obtain ⟨ppr, hppr, hmem⟩ := getCheck_eq_true hbody
    exact ⟨ppr, hppr, of_decide_eq_true hmem⟩
  · intro p pr c hg hc
    have hbody := List.all_eq_true.mp h4 (p, pr) (aget_mem hg)
    dsimp only at hbody
    have hcbody := List.all_eq_true.mp hbody c hc
    obtain ⟨cpr, hcpr, hpar⟩ := getCheck_eq_true hcbody
    exact ⟨cpr, hcpr, of_decide_eq_true hpar⟩
  · intro p pr hg
    exact of_decide_eq_true (List.all_eq_true.mp h5 (p, pr) (aget_mem hg))

/-! ## Concrete example tables -/

/-- A two-process table: pid 1 is a root, pid 2 its child. -/
def ex1 : Table := [(1, ⟨0, none, [2], none⟩), (2, ⟨0, some 1, [], none⟩)]

/-- An operation sequence exercising `start`, `reparent` and `exit`. -/
def exOps : List Op := [Op.start 1 0, Op.reparent 1 2 1, Op.exit 1 2]

/-- A host state holding `ex1` with the counter past both pids. -/
def exSt : HostSt := ⟨ex1, [], 2⟩

/-! ## Claim theorems for the process table -/

/-- C1: with caller `1` and target `2` — a strict descendant, so
`is-in-subtree(2, 1)` holds and the authority check passes — the API-bound
`exit` removes pid 1 (the caller) together with pid 2, because the source
calls `exit(pid)` instead of `exit(process)` after validating `process`.
The claim expects exactly pid 2 removed and the caller to survive; instead
the whole table is emptied and the caller's row is gone. -/
theorem C1_api_exit_exits_caller :
    isInSubtree ex1 2 1 = .ok true ∧
    apiExit 1 2 ex1 = ([], none) ∧
    aget (apiExit 1 2 ex1).1 1 = none := by
  refine ⟨rfl, ?_, ?_⟩ <;>
    simp [apiExit, exitF, exitKids, exitDetach, ex1, aget, adel, aset,
      truthyPid, childDel, isInSubtree, isInSubtreeFuel]

/-- C2: under any sequence of API-bound `start`/`reparent`/`exit` calls
(callers being pids, hence positive) a well-formed — in particular
acyclic — table stays well-formed and acyclic; and whenever the caller's
authority check passes and the requested new parent `target` lies in the
subtree of the reparented node (`Reaches t target node`), the API-bound
reparent fails with a topology violation and leaves the table unchanged,
so no cycle-closing edge is ever installed. -/
theorem C2_forest_preserved :
    (∀ (ops : List Op) (st : HostSt), (∀ op ∈ ops, validOp op = true) → WF st.table →
      WF (runOps ops st).table ∧ AcyclicR (runOps ops st).table) ∧
    (∀ (t : Table) (c node target : Nat), WF t →
      isInSubtree t node c = .ok true → Reaches t target node →
      apiReparent c node target t = (t, some .topologyViolation)) := by
  constructor
  · intro ops st hv hWF
    have h := runOps_wf hWF hv
    exact ⟨h, h.acyclic⟩
  · intro t c node target hWF hg1 hre
    have hg1f : isInSubtreeFuel t c (t.length + 1) (some node) = .ok true := hg1
    obtain ⟨pr, hpr⟩ := walk_ok_live hg1f
    obtain ⟨trowx, htrowx⟩ := reaches_start_live hre ⟨pr, hpr⟩
    have htmem : target ∈ keysOf t := aget_mem_keys htrowx
    have hg2 : isInSubtree t target node = .ok true :=
      (isInSubtree_true_iff node hWF htmem).mpr hre
    unfold apiReparent
    rw [hg1, hg2]

/-- Witness for C2 at a concrete table and operation sequence; the reparent
part is exercised by asking to reparent pid 2 under itself. -/
theorem C2_forest_preserved_witness :
    (WF (runOps exOps exSt).table ∧ AcyclicR (runOps exOps exSt).table) ∧
    apiReparent 1 2 2 ex1 = (ex1, some .topologyViolation) :=
  ⟨C2_forest_preserved.1 exOps exSt (by decide) (WF_of_wfB (by decide)),
   C2_forest_preserved.2 ex1 1 2 2 (WF_of_wfB (by decide)) rfl (Reaches.refl 2)⟩

/-- C9: the API-bound `send` performs no subtree-authority check: for any
caller it succeeds on every pid present in the table — posting the
sender-stamped pair `[caller, data]` on the target's port — and fails with
*not-found* exactly when the target is absent. -/
theorem C9_send_no_authority_check :
    ∀ (t : Table) (caller target : Nat) {δ : Type} (data : δ),
      (∀ pr, aget t target = some pr →
        apiSend caller target data t = .ok (pr.port, (caller, data))) ∧
      (aget t target = none → apiSend caller target data t = .error .notFound) := by
  intro t caller target δ data
  constructor
  · intro pr hpr
    unfold apiSend sendHost
    rw [hpr]
  · intro hnone
    unfold apiSend sendHost
    rw [hnone]

/-- Witness for C9: pid 2 sends to its ancestor pid 1, which is *not* in
2's subtree, and the send still succeeds with the stamped payload. -/
theorem C9_send_witness :
    isInSubtree ex1 1 2 = .ok false ∧
    apiSend 2 1 (37 : Nat) ex1 = .ok (0, (2, 37)) :=
  ⟨rfl, (C9_send_no_authority_check ex1 2 1 37).1 ⟨0, none, [2], none⟩ rfl⟩

/-- C10: `getPID` always returns a pid that is absent from the table and
strictly greater than the current counter, the counter is left at the
returned pid so consecutive allocations are strictly increasing whatever
happens to the table in between, and no API call ever decreases the
counter — hence a pid removed by `exit` is never handed out again. -/
theorem C10_getPID_monotonic_fresh :
    (∀ (t : Table) (ctr : Nat), getPID t ctr ∉ keysOf t ∧ ctr < getPID t ctr ∧
      ∀ t2 : Table, getPID t ctr < getPID t2 (getPID t ctr)) ∧
    (∀ (op : Op) (st : HostSt), st.ctr ≤ (stepOp op st).1.ctr) := by
  constructor
  · intro t ctr
    obtain ⟨h1, h2⟩ := getPID_spec t ctr
    exact ⟨h1, h2, fun t2 => (getPID_spec t2 (getPID t ctr)).2⟩
  · exact stepOp_ctr

/-- Witness for C10 at a concrete table and counter. -/
theorem C10_getPID_witness :
    getPID ex1 2 ∉ keysOf ex1 ∧ 2 < getPID ex1 2 :=
  ⟨(C10_getPID_monotonic_fresh.1 ex1 2).1, (C10_getPID_monotonic_fresh.1 ex1 2).2.1⟩

/-! ## The name registry -/

/-- Registry consistency: every name in the registry maps to a pid whose row
is present and carries exactly that name (`table[registry[n]].name = n`). -/
def RegOK (t : Table) (ns : Names) : Prop :=
  ∀ n p, aget ns n = some p → (aget t p).map Process.name = some (some n)

/-- The registry invariant actually maintained by the host: consistency,
duplicate-free names, and no empty name (an empty name is falsy in JS, so
`name` would fail to release it). -/
def RegInv (t : Table) (ns : Names) : Prop :=
  RegOK t ns ∧ (akeys ns).Nodup ∧ aget ns "" = none

theorem RegOK_of_forall_mem {t : Table} {ns : Names}
    (h : ∀ pr ∈ ns, (aget t pr.2).map Process.name = some (some pr.1)) : RegOK t ns :=
  fun n p hget => h (n, p) (aget_mem hget)

/-- If every option is already present in the registry, the naming loop
falls through and changes nothing (`return false`). -/
theorem nameLoop_all_claimed {t : Table} {ns : Names} {pid : Nat} (options : List String)
    (h : ∀ o ∈ options, ∃ q, aget ns o = some q) :
    nameLoop pid options t ns = (t, ns, none) := by
  induction options with
  | nil => rfl
  | cons o rest ih =>
    obtain ⟨q, hq⟩ := h o (List.mem_cons_self o rest)
    rw [nameLoop, hq]
    exact ih (fun o' ho' => h o' (List.mem_cons_of_mem _ ho'))

/-- The naming loop preserves the registry invariant, provided the pid being
named was scrubbed from the registry beforehand and no option is empty. -/
theorem nameLoop_RegInv {t : Table} {ns : Names} {pid : Nat} {w : Process}
    (options : List String)
    (hw : aget t pid = some w)
    (hOK : RegOK t ns) (hnd : (akeys ns).Nodup) (hemp : aget ns "" = none)
    (hnopid : ∀ n, aget ns n ≠ some pid)
    (hne : "" ∉ options) :
    RegOK (nameLoop pid options t ns).1 (nameLoop pid options t ns).2.1 ∧
      (akeys (nameLoop pid options t ns).2.1).Nodup ∧
      aget (nameLoop pid options t ns).2.1 "" = none := by
  induction options with
  | nil => exact ⟨hOK, hnd, hemp⟩
  | cons o rest ih =>
    have hone : o ≠ "" := fun h => hne (h ▸ List.mem_cons_self o rest)
    have hnr : "" ∉ rest := fun h => hne (List.mem_cons_of_mem _ h)
    rw [nameLoop]
    match ho : aget ns o with
    | some q => exact ih hnr
    | none =>
      dsimp only
      refine ⟨?_, nodup_akeys_aset hnd, ?_⟩
      · intro n p hget
        by_cases hno : n = o
        · subst hno
          rw [aget_aset_self] at hget
          injection hget with hget
          subst hget
          rw [aget_amod_self, hw]
          rfl
        · rw [aget_aset_ne _ _ _ _ hno] at hget
          by_cases hp : p = pid
          · exact absurd (hp ▸ hget) (hnopid n)
          · rw [aget_amod_ne _ _ _ _ hp]
            exact hOK n p hget
      · rw [aget_aset_ne _ _ _ _ (fun h => hone h.symm)]
        exact hemp

/-- `name(pid, options)` preserves the registry invariant when no option is
the empty string. -/
theorem nameOp_RegInv {st : HostSt} {pid : Nat} {options : List String}
    (hInv : RegInv st.table st.names) (hne : "" ∉ options) :
    RegInv (nameOp st pid options).1.table (nameOp st pid options).1.names := by
  obtain ⟨hOK, hnd, hemp⟩ := hInv
  unfold nameOp
  match hproc : aget st.table pid with
  | none => exact ⟨hOK, hnd, hemp⟩
  | some proc =>
    dsimp only
    match hn : proc.name with
    | some m =>
      by_cases hm : m = ""
      · -- the prior name is the empty string: falsy, so nothing is cleared
        subst hm
        rw [truthyName]
        simp only [ne_eq, not_true_eq_false, decide_False, Bool.false_eq_true, if_false]
        have hnopid : ∀ n, aget st.names n ≠ some pid := by
          intro n hget
          have h1 := hOK n pid hget
          rw [hproc] at h1
          injection h1 with h1
          rw [hn] at h1
          injection h1 with h1
          rw [h1] at hemp
          rw [hget] at hemp
          exact Option.noConfusion hemp
        have h := nameLoop_RegInv options hproc hOK hnd hemp hnopid hne
        match hl : nameLoop pid options st.table st.names with
        | (t1, ns1, r) =>
          rw [hl] at h
          exact h
      · -- a real prior name: it is deleted from the registry and the row
        rw [truthyName]
        simp only [ne_eq, hm, not_false_eq_true, decide_True, if_true]
        have ht' : aget (aset st.table pid { proc with name := none }) pid =
            some { proc with name := none } := aget_aset_self _ _ _
        have hOK' : RegOK (aset st.table pid { proc with name := none })
            (adel st.names m) := by
          intro n p hget
          by_cases hnm : n = m
          · subst hnm
            rw [aget_adel_self _ _ hnd] at hget
            exact Option.noConfusion hget
          · rw [aget_adel_ne _ _ _ hnm] at hget
            by_cases hp : p = pid
            · subst hp
              have h1 := hOK n p hget
              rw [hproc] at h1
              injection h1 with h1
              rw [hn] at h1
              injection h1 with h1
              exact absurd h1.symm hnm
            · rw [aget_aset_ne _ _ _ _ hp]
              exact hOK n p hget
        have hnd' : (akeys (adel st.names m)).Nodup := nodup_akeys_adel hnd
        have hemp' : aget (adel st.names m) "" = none := by
          rw [aget_adel_ne _ _ _ (fun h => hm h.symm)]
          exact hemp
        have hnopid : ∀ n, aget (adel st.names m) n ≠ some pid := by
          intro n hget
          by_cases hnm : n = m
          · subst hnm
            rw [aget_adel_self _ _ hnd] at hget
            exact Option.noConfusion hget
          · rw [aget_adel_ne _ _ _ hnm] at hget
            have h1 := hOK n pid hget
            rw [hproc] at h1
            injection h1 with h1
            rw [hn] at h1
            injection h1 with h1
            exact hnm h1.symm
        have h := nameLoop_RegInv options ht' hOK' hnd' hemp' hnopid hne
        match hl : nameLoop pid options (aset st.table pid { proc with name := none })
            (adel st.names m) with
        | (t1, ns1, r) =>
          rw [hl] at h
          exact h
    | none =>
      rw [truthyName]
      simp only [Bool.false_eq_true, if_false]
      have hnopid : ∀ n, aget st.names n ≠ some pid := by
        intro n hget
        have h1 := hOK n pid hget
        rw [hproc] at h1
        injection h1 with h1
        rw [hn] at h1
        exact Option.noConfusion h1
      have h := nameLoop_RegInv options hproc hOK hnd hemp hnopid hne
      match hl : nameLoop pid options st.table st.names with
      | (t1, ns1, r) =>
        rw [hl] at h
        exact h

/-- `start` (with a real caller pid) preserves the registry invariant: the
fresh pid is created nameless and the registry is untouched. -/
theorem apiStart_RegInv {st : HostSt} {ns : Names} {c port : Nat}
    (hInv : RegInv st.table ns) (hc : c ≠ 0) :
    RegInv (apiStart c port st).1.table ns := by
  obtain ⟨hOK, hnd, hemp⟩ := hInv
  match hlk : aget st.table c with
  | none =>
    rw [apiStart_dead hc hlk]
    exact ⟨hOK, hnd, hemp⟩
  | some crow =>
    rw [apiStart_live hc hlk]
    refine ⟨?_, hnd, hemp⟩
    intro n p hget
    have h1 := hOK n p hget
    dsimp only
    set pid := getPID st.table st.ctr with hpid
    have hfresh := (getPID_spec st.table st.ctr).1
    have hppid : p ≠ pid := by
      intro h
      subst h
      rw [aget_eq_none_of_not_mem hfresh] at h1
      exact Option.noConfusion h1
    by_cases hpc : p = c
    · subst hpc
      rw [aget_amod_self, aget_aset_ne st.table pid p _ hppid, hlk]
      rw [hlk] at h1
      exact h1
    · rw [aget_amod_ne _ _ _ _ hpc, aget_aset_ne st.table pid p _ hppid]
      exact h1

/-- The API-bound `reparent` preserves the registry invariant: it moves
rows around the tree but never touches a `name` field or the registry. -/
theorem apiReparent_RegInv {t : Table} {ns : Names} {c node target : Nat}
    (hWF : WF t) (hInv : RegInv t ns) :
    RegInv (apiReparent c node target t).1 ns := by
  obtain ⟨hOK, hnd, hemp⟩ := hInv
  unfold apiReparent
  match hg1 : isInSubtree t node c with
  | .error e => exact ⟨hOK, hnd, hemp⟩
  | .ok false => exact ⟨hOK, hnd, hemp⟩
  | .ok true =>
    match hg2 : isInSubtree t target node with
    | .error e => exact ⟨hOK, hnd, hemp⟩
    | .ok true => exact ⟨hOK, hnd, hemp⟩
    | .ok false =>
      have hg1f : isInSubtreeFuel t c (t.length + 1) (some node) = .ok true := hg1
      have hg2f : isInSubtreeFuel t node (t.length + 1) (some target) = .ok false := hg2
      obtain ⟨proc, hproc⟩ := walk_ok_live hg1f
      obtain ⟨trow, htrow⟩ := walk_ok_live hg2f
      have hNotR : ¬ Reaches t target node := walk_false_not_reaches hg2f
      obtain ⟨t3, heq, hWF3, hkeys3, hnames3⟩ := reparentInner_run hWF hproc htrow hNotR
      rw [heq]
      refine ⟨?_, hnd, hemp⟩
      intro n p hget
      rw [hnames3 p]
      exact hOK n p hget

/-- `exit(p)` on a registered pid succeeds but leaves the registry entry
behind, pointing at the removed row: consistency is broken. -/
theorem exit_breaks_RegOK {t : Table} {ns : Names} {n : String} {p : Nat}
    (hWF : WF t) (hOK : RegOK t ns) (hn : aget ns n = some p) :
    ∃ t', exitF (t.length + 1) p t = (t', none) ∧ aget t' p = none ∧ ¬ RegOK t' ns := by
  have h1 := hOK n p hn
  have hlive : p ∈ keysOf t := by
    match hp : aget t p with
    | none => rw [hp] at h1; exact Option.noConfusion h1
    | some pr => exact aget_mem_keys hp
  obtain ⟨t', heq, hgone, _, _, _⟩ := exitF_run hWF hlive
  have hpg : aget t' p = none := hgone p (Reaches.refl p)
  refine ⟨t', heq, hpg, ?_⟩
  intro hOK'
  have h2 := hOK' n p hn
  rw [hpg] at h2
  exact Option.noConfusion h2

/-- Two roots, pid 1 named "a" and pid 2 named "b", registry matching. -/
def tC3 : Table := [(1, ⟨0, none, [], some "a"⟩), (2, ⟨0, none, [], some "b"⟩)]

def nsC3 : Names := [("a", 1), ("b", 2)]

def stC3 : HostSt := ⟨tC3, nsC3, 10⟩

/-- A single root, pid 1, named "a", with a matching registry. -/
def tC4 : Table := [(1, ⟨0, none, [], some "a"⟩)]

def nsC4 : Names := [("a", 1)]

/-- C3 (amended): when `name(p, options)` is called on a process holding a
real (non-empty) name `m` and every option is already claimed — the options
being distinct from `m`, which the call itself frees — the call does return
false (`.ok none`), but the prior name is *not* retained: the source deletes
`m` from the registry and clears the row's name field *before* trying the
options, so the failed call leaves `p` nameless and `m` unregistered. -/
theorem C3_name_failure_drops_prior_name :
    ∀ (st : HostSt) (p : Nat) (proc : Process) (m : String) (options : List String),
      aget st.table p = some proc → proc.name = some m → m ≠ "" →
      (akeys st.names).Nodup → m ∉ options →
      (∀ o ∈ options, ∃ q, aget st.names o = some q) →
      nameOp st p options =
        ({ st with table := aset st.table p { proc with name := none },
                   names := adel st.names m }, .ok none) ∧
      (aget (nameOp st p options).1.table p).map Process.name = some none ∧
      aget (nameOp st p options).1.names m = none := by
  intro st p proc m options hproc hname hm hnd hnotin hcl
  have hcl' : ∀ o ∈ options, ∃ q, aget (adel st.names m) o = some q := by
    intro o ho
    obtain ⟨q, hq⟩ := hcl o ho
    have hom : o ≠ m := fun h => hnotin (h ▸ ho)
    exact ⟨q, by rw [aget_adel_ne _ _ _ hom]; exact hq⟩
  have hmain : nameOp st p options =
      ({ st with table := aset st.table p { proc with name := none },
                 names := adel st.names m }, .ok none) := by
    unfold nameOp
    rw [hproc]
    dsimp only
    rw [hname, truthyName]
    simp only [ne_eq, hm, not_false_eq_true, decide_True, if_true]
    rw [nameLoop_all_claimed options hcl']
  refine ⟨hmain, ?_, ?_⟩
  · rw [hmain]
    dsimp only
    rw [aget_aset_self]
    rfl
  · rw [hmain]
    dsimp only
    exact aget_adel_self _ _ hnd

/-- Counterexample to C3 as stated: pid 1 holds "a", the single option "b"
is claimed by pid 2; the call returns false, yet pid 1 does *not* still hold
"a" — its name field is cleared and "a" is gone from the registry. -/
theorem C3_name_failure_cex :
    aget stC3.table 1 = some ⟨0, none, [], some "a"⟩ ∧
    aget stC3.names "b" = some 2 ∧
    (nameOp stC3 1 ["b"]).2 = .ok none ∧
    ¬ ((aget (nameOp stC3 1 ["b"]).1.table 1).map Process.name = some (some "a")) ∧
    aget (nameOp stC3 1 ["b"]).1.names "a" = none := by
  refine ⟨rfl, rfl, rfl, by decide, rfl⟩

/-- Witness for C3 at the concrete state `stC3`. -/
theorem C3_name_failure_witness :
    nameOp stC3 1 ["b"] =
      ({ stC3 with
          table := aset stC3.table 1
            { (⟨0, none, [], some "a"⟩ : Process) with name := none },
          names := adel stC3.names "a" }, .ok none) ∧
    (aget (nameOp stC3 1 ["b"]).1.table 1).map Process.name = some none ∧
    aget (nameOp stC3 1 ["b"]).1.names "a" = none :=
  C3_name_failure_drops_prior_name stC3 1 ⟨0, none, [], some "a"⟩ "a" ["b"]
    rfl rfl (by decide) (by decide) (by decide)
    (by
      intro o ho
      simp only [List.mem_singleton] at ho
      subst ho
      exact ⟨2, rfl⟩)

/-- C4 (amended): the registry invariant — every registered name points at a
live row carrying that name — is preserved by `name` (for non-empty
options), by `start` and by `reparent`; but `exit` never cleans the
registry: exiting a registered pid succeeds and necessarily leaves a stale
entry behind, so the claimed "exit releases names" part is false. -/
theorem C4_registry_consistency :
    (∀ (st : HostSt) (pid : Nat) (options : List String),
        RegInv st.table st.names → "" ∉ options →
        RegInv (nameOp st pid options).1.table (nameOp st pid options).1.names) ∧
    (∀ (st : HostSt) (c port : Nat), c ≠ 0 →
        RegInv st.table st.names →
        RegInv (apiStart c port st).1.table (apiStart c port st).1.names) ∧
    (∀ (t : Table) (ns : Names) (c node target : Nat),
        WF t → RegInv t ns → RegInv (apiReparent c node target t).1 ns) ∧
    (∀ (t : Table) (ns : Names) (n : String) (p : Nat),
        WF t → RegOK t ns → aget ns n = some p →
        ∃ t', exitF (t.length + 1) p t = (t', none) ∧ aget t' p = none ∧
          ¬ RegOK t' ns) := by
  refine ⟨fun st pid options hInv hne => nameOp_RegInv hInv hne, ?_,
    fun t ns c node target hWF hInv => apiReparent_RegInv hWF hInv,
    fun t ns n p hWF hOK hn => exit_breaks_RegOK hWF hOK hn⟩
  intro st c port hc hInv
  have hnames : (apiStart c port st).1.names = st.names := by
    unfold apiStart
    dsimp only
    by_cases h : (c ≠ 0 ∧ (if c ≠ 0 then aget st.table c else none) = none)
    · rw [if_pos h]
    · rw [if_neg h]
  rw [hnames]
  exact apiStart_RegInv hInv hc

/-- Counterexample to C4 as stated: with pid 1 registered as "a" and the
registry consistent, `exit(1)` empties the table but the registry still
maps "a" to the removed pid 1, so consistency is broken. -/
theorem C4_registry_consistency_cex :
    (∀ pr ∈ nsC4, (aget tC4 pr.2).map Process.name = some (some pr.1)) ∧
    exitF (tC4.length + 1) 1 tC4 = ([], none) ∧
    aget nsC4 "a" = some 1 ∧
    ¬ RegOK ([] : Table) nsC4 := by
  refine ⟨by decide, ?_, rfl, ?_⟩
  · simp [exitF, exitKids, exitDetach, tC4, aget, adel, truthyPid]
  · intro h
    exact Option.noConfusion (h "a" 1 rfl)

/-- Witness for C4 at concrete states built over `tC4`/`nsC4`. -/
theorem C4_registry_consistency_witness :
    RegInv (nameOp ⟨tC4, nsC4, 5⟩ 1 ["b"]).1.table
      (nameOp ⟨tC4, nsC4, 5⟩ 1 ["b"]).1.names ∧
    RegInv (apiStart 1 7 ⟨tC4, nsC4, 5⟩).1.table
      (apiStart 1 7 ⟨tC4, nsC4, 5⟩).1.names ∧
    RegInv (apiReparent 1 1 1 tC4).1 nsC4 ∧
    (∃ t', exitF (tC4.length + 1) 1 tC4 = (t', none) ∧ aget t' 1 = none ∧
      ¬ RegOK t' nsC4) := by
  have hInv : RegInv tC4 nsC4 := ⟨RegOK_of_forall_mem (by decide), by decide, by decide⟩
  have hWF : WF tC4 := WF_of_wfB (by decide)
  exact ⟨C4_registry_consistency.1 ⟨tC4, nsC4, 5⟩ 1 ["b"] hInv (by decide),
         C4_registry_consistency.2.1 ⟨tC4, nsC4, 5⟩ 1 7 (by decide) hInv,
         C4_registry_consistency.2.2.1 tC4 nsC4 1 1 1 hWF hInv,
         C4_registry_consistency.2.2.2 tC4 nsC4 "a" 1 hWF hInv.1 rfl⟩

/-! ## The IPC layer (`src/ipc.ts`)

JS runtime values occurring in IPC frames are embedded as `JVal`;
reading an absent object field yields `undefined` (`readField`).  JS
truthiness (`if (reply.error)`) is `truthy`.  Loose equality against the
string literals used by the protocol (`'close'`) is string comparison for
same-typed operands; mixed-type numeric coercions do not arise for these
literals. -/

inductive JVal where
  | undef
  | jnull
  | jbool (b : Bool)
  | jnum (n : Int)
  | jstr (s : String)
  | jerr (msg : String)
deriving DecidableEq, Repr

/-- JS truthiness: `undefined`, `null`, `false`, `0`, `""` are falsy;
`Error` objects are truthy. -/
def truthy : JVal → Bool
  | .undef => false
  | .jnull => false
  | .jbool b => b
  | .jnum n => n ≠ 0
  | .jstr s => s ≠ ""
  | .jerr _ => true

/-- Reading an object field: an absent field reads as `undefined`. -/
def readField : Option JVal → JVal
  | none => .undef
  | some v => v

/-- An IPC message frame: the fields the protocol inspects.  `channel` and
`call`/`args` are `Option`s because their *presence* matters on the paths
that post them; `result` and `error` are only ever read (absent ⇒
`undefined`). -/
structure Frame where
  channel : Option JVal
  call : Option JVal
  args : Option (List JVal)
  result : JVal
  error : JVal
deriving DecidableEq, Repr

/-- The frame `ipc` posts: `{ call, args, transfer }`. -/
def ipcRequest (call : JVal) (args : List JVal) : Frame :=
  ⟨none, some call, some args, .undef, .undef⟩

/-- The `{ result }` frame `handleIpc` posts on success. -/
def replyResult (v : JVal) : Frame := ⟨none, none, none, v, .undef⟩

/-- The `{ error }` frame `handleIpc` posts when the callback throws. -/
def replyError (e : JVal) : Frame := ⟨none, none, none, .undef, e⟩

/-- The rejection value of `getOneMessage` on `{channel:'close'}`. -/
def closedErr : JVal := .jerr "The channel was closed prematurely"

/-- `getOneMessage(port)` applied to the next inbound frame: reject if
`ev.data.channel === 'close'`, else resolve with the frame. -/
def getOneMessage (fr : Frame) : Except JVal Frame :=
  if readField fr.channel = .jstr "close" then .error closedErr else .ok fr

/-- The tail of `ipc` applied to a received reply frame:
`if (reply.error) throw reply.error; else return reply.result` — note the
*truthiness* test on `reply.error`. -/
def ipcResolve (reply : Frame) : Except JVal JVal :=
  if truthy reply.error then .error reply.error else .ok reply.result

/-- The client side of `ipc` from the arrival of the next inbound frame:
`const reply = await getOneMessage(port); if (reply.error) ...`. -/
def ipcAwait (fr : Frame) : Except JVal JVal :=
  match getOneMessage fr with
  | .error e => .error e
  | .ok reply => ipcResolve reply

/-- The listener installed by `handleIpc(port, name, callback)` applied to
one frame: dispatch when `ev.data.call` equals the registered name (return
`none` — no reply — otherwise), default absent `args` to `[]`, then post
`{result}` on return and `{error}` on throw. -/
def handleIpc (n : JVal) (callback : List JVal → Except JVal JVal) (fr : Frame) :
    Option Frame :=
  if readField fr.call ≠ n then none
  else
    match callback (fr.args.getD []) with
    | .ok v => some (replyResult v)
    | .error e => some (replyError e)

/-! ### `makeServer` -/

/-- A table entry passed to `makeServer`: a function or some other value. -/
inductive SEntry where
  | fn (f : List JVal → Except JVal JVal)
  | val (v : JVal)

def SEntry.isFn : SEntry → Bool
  | .fn _ => true
  | .val _ => false

/-- `Object.getOwnPropertyNames(table).filter(k => typeof table[k] ===
'function')` — the callable keys, in property order. -/
def makeServerKeys (table : List (String × SEntry)) : List String :=
  (akeys table).filter (fun k =>
    match aget table k with
    | some e => e.isFn
    | none => false)

/-- The `for (const key of keys)` registration loop of `makeServer`: look
each key up and register its handler (the `typeof handler !== 'function'`
re-check skips anything not callable). -/
def regLoop (table : List (String × SEntry)) :
    List String → List (String × (List JVal → Except JVal JVal))
  | [] => []
  | k :: rest =>
    match aget table k with
    | some (.fn f) => (k, f) :: regLoop table rest
    | _ => regLoop table rest

/-- `makeServer(port, table)`: the list the `help` handler replies with,
and the call handlers that get registered. -/
def makeServer (table : List (String × SEntry)) :
    List String × List (String × (List JVal → Except JVal JVal)) :=
  (makeServerKeys table, regLoop table (makeServerKeys table))

/-! ### `makeProperty` -/

/-- The state of a property made by `makeProperty`: the authoritative value
and the set of subscribed tracker ports (ports as numeric ids). -/
structure PropSt where
  value : JVal
  trackers : List Nat
deriving DecidableEq, Repr

/-- A frame arriving on a tracker port: what `handleMessage` inspects is
the *presence* of `channel` and its value. -/
structure TFrame where
  channel : Option JVal
  value : Option JVal
deriving DecidableEq, Repr

/-- `handleMessage` of `makeProperty` applied to one tracker frame: on
`'channel' in ev.data && ev.data.channel == 'close'` unsubscribe the source
port, on *anything* else throw `'Unrecognized message'`.  Result: new
state, messages posted `(port, value)`, and the thrown error if any. -/
def propHandleMessage (st : PropSt) (src : Nat) (fr : TFrame) :
    PropSt × List (Nat × JVal) × Option String :=
  match fr.channel with
  | some c =>
    if c = .jstr "close" then
      ({ st with trackers := st.trackers.filter (fun p => p ≠ src) }, [], none)
    else (st, [], some "Unrecognized message")
  | none => (st, [], some "Unrecognized message")

/-- The property setter: commit the value, then broadcast `{value}` to
every subscribed tracker. -/
def propSet (st : PropSt) (v : JVal) : PropSt × List (Nat × JVal) :=
  ({ st with value := v }, st.trackers.map (fun p => (p, v)))

/-- `track<Name>(port)`: subscribe the port and send it the current value. -/
def propTrack (st : PropSt) (port : Nat) : PropSt × List (Nat × JVal) :=
  ({ st with trackers := childAdd st.trackers port }, [(port, st.value)])

/-- A property state: value `1`, one subscribed tracker, port 7. -/
def stC5 : PropSt := ⟨.jnum 1, [7]⟩

/-- The tracker frame `{value: 2}` (no `channel` field). -/
def frC5 : TFrame := ⟨none, some (.jnum 2)⟩

/-- The inbound frame `{channel:'close'}`. -/
def frClose : Frame := ⟨some (.jstr "close"), none, none, .undef, .undef⟩

/-- C5 (amended): `makeProperty`'s tracker handler recognises *only*
`{channel:'close'}` (which unsubscribes the source port); every other
frame — in particular `{value: v}` — throws `Unrecognized message`, with no
reply sent and no state change: there is no read-only error reply and no
writable/validator commit path.  A value is committed and `{value}`
broadcast to every tracker (originator included) only by the server-side
property setter. -/
theorem C5_property_message_handling :
    (∀ (st : PropSt) (src : Nat) (fr : TFrame),
        (∀ c, fr.channel = some c → c ≠ .jstr "close") →
        propHandleMessage st src fr = (st, [], some "Unrecognized message")) ∧
    (∀ (st : PropSt) (src : Nat) (fr : TFrame),
        fr.channel = some (.jstr "close") →
        propHandleMessage st src fr =
          ({ st with trackers := st.trackers.filter (fun p => p ≠ src) }, [], none)) ∧
    (∀ (st : PropSt) (v : JVal),
        (propSet st v).1.value = v ∧ ∀ p ∈ st.trackers, (p, v) ∈ (propSet st v).2) := by
  refine ⟨?_, ?_, ?_⟩
  · intro st src fr h
    unfold propHandleMessage
    match hc : fr.channel with
    | none => rfl
    | some c =>
      dsimp only
      rw [if_neg (h c hc)]
  · intro st src fr h
    unfold propHandleMessage
    rw [h]
    dsimp only
    rw [if_pos rfl]
  · intro st v
    refine ⟨rfl, ?_⟩
    intro p hp
    unfold propSet
    dsimp only
    exact List.mem_map_of_mem _ hp

/-- Counterexample to C5 as stated: tracker port 7 sends `{value: 2}`; the
claim expects either a read-only error reply on port 7 or a commit and
broadcast, but the handler throws `Unrecognized message`, posts nothing,
and the authoritative value stays `1`. -/
theorem C5_property_message_cex :
    propHandleMessage stC5 7 frC5 = (stC5, [], some "Unrecognized message") ∧
    (propHandleMessage stC5 7 frC5).1.value = .jnum 1 ∧
    (propHandleMessage stC5 7 frC5).2.1 = [] :=
  ⟨rfl, rfl, rfl⟩

/-- Witness for C5 at concrete states and frames. -/
theorem C5_property_message_witness :
    propHandleMessage stC5 7 frC5 = (stC5, [], some "Unrecognized message") ∧
    propHandleMessage stC5 7 ⟨some (.jstr "close"), none⟩ =
      ({ stC5 with trackers := stC5.trackers.filter (fun p => p ≠ 7) }, [], none) ∧
    ((propSet stC5 (.jnum 5)).1.value = .jnum 5 ∧
      ∀ p ∈ stC5.trackers, (p, .jnum 5) ∈ (propSet stC5 (.jnum 5)).2) :=
  ⟨C5_property_message_handling.1 stC5 7 frC5
      (by intro c hc; exact Option.noConfusion hc),
   C5_property_message_handling.2.1 stC5 7 ⟨some (.jstr "close"), none⟩ rfl,
   C5_property_message_handling.2.2 stC5 (.jnum 5)⟩

/-- C8: an inbound `{channel:'close'}` frame makes `getOneMessage` — and
hence a pending in-band `ipc` call awaiting its reply — reject with
*channel-closed-prematurely*; any other frame resolves with the frame
itself (the pending `ipc` then applying its error/result split to it). -/
theorem C8_close_rejects_prematurely :
    ∀ fr : Frame,
      (readField fr.channel = .jstr "close" →
        getOneMessage fr = .error closedErr ∧ ipcAwait fr = .error closedErr) ∧
      (readField fr.channel ≠ .jstr "close" →
        getOneMessage fr = .ok fr ∧ ipcAwait fr = ipcResolve fr) := by
  intro fr
  constructor
  · intro h
    have h1 : getOneMessage fr = .error closedErr := by
      unfold getOneMessage
      rw [if_pos h]
    refine ⟨h1, ?_⟩
    unfold ipcAwait
    rw [h1]
  · intro h
    have h1 : getOneMessage fr = .ok fr := by
      unfold getOneMessage
      rw [if_neg h]
    refine ⟨h1, ?_⟩
    unfold ipcAwait
    rw [h1]

/-- Witness for C8: a close frame rejects, a result frame resolves. -/
theorem C8_close_rejects_witness :
    (getOneMessage frClose = .error closedErr ∧ ipcAwait frClose = .error closedErr) ∧
    (getOneMessage (replyResult (.jnum 4)) = .ok (replyResult (.jnum 4)) ∧
      ipcAwait (replyResult (.jnum 4)) = ipcResolve (replyResult (.jnum 4))) :=
  ⟨(C8_close_rejects_prematurely frClose).1 rfl,
   (C8_close_rejects_prematurely (replyResult (.jnum 4))).2 (by decide)⟩

/-- C6 (amended): a registered handler is invoked exactly on frames whose
`call` field equals its name; a returned value comes back to the caller
unchanged, via a `{result}` frame; a thrown error is serialized into an
`{error}` frame — but the caller tests `reply.error` for *truthiness*, so
the call rejects with the error only when the error is truthy, and a falsy
thrown error (`0`, `''`, `false`, `null`) makes the caller *resolve* with
`undefined` instead. -/
theorem C6_rpc_roundtrip :
    ∀ (n : JVal) (h : List JVal → Except JVal JVal) (fr : Frame),
      (readField fr.call ≠ n → handleIpc n h fr = none) ∧
      (readField fr.call = n →
        (∀ v, h (fr.args.getD []) = .ok v →
          handleIpc n h fr = some (replyResult v) ∧
            ipcAwait (replyResult v) = .ok v) ∧
        (∀ e, h (fr.args.getD []) = .error e →
          handleIpc n h fr = some (replyError e) ∧
            ipcAwait (replyError e) =
              (if truthy e then .error e else .ok .undef))) := by
  intro n h fr
  constructor
  · intro hne
    unfold handleIpc
    rw [if_pos hne]
  · intro heq
    have hno : ¬ (readField fr.call ≠ n) := fun hh => hh heq
    constructor
    · intro v hv
      refine ⟨?_, rfl⟩
      unfold handleIpc
      rw [if_neg hno, hv]
    · intro e he
      refine ⟨?_, rfl⟩
      unfold handleIpc
      rw [if_neg hno, he]

/-- Counterexample to C6 as stated: the handler throws the (falsy) error
`0`; the server duly posts `{error: 0}`, but the caller's
`if (reply.error)` test fails and the `ipc` promise *resolves* with
`undefined` instead of rejecting with the thrown error. -/
theorem C6_rpc_roundtrip_cex :
    handleIpc (.jstr "f") (fun _ => .error (.jnum 0)) (ipcRequest (.jstr "f") []) =
      some (replyError (.jnum 0)) ∧
    ipcAwait (replyError (.jnum 0)) = .ok .undef := by
  exact ⟨rfl, rfl⟩

/-- Witness for C6: a result round-trips, a truthy error rejects, a
mismatched call name gets no reply. -/
theorem C6_rpc_roundtrip_witness :
    handleIpc (.jstr "ping") (fun _ => .ok (.jstr "pong"))
        (ipcRequest (.jstr "ping") []) = some (replyResult (.jstr "pong")) ∧
    ipcAwait (replyResult (.jstr "pong")) = .ok (.jstr "pong") ∧
    handleIpc (.jstr "ping") (fun _ => .error (.jerr "boom"))
        (ipcRequest (.jstr "ping") []) = some (replyError (.jerr "boom")) ∧
    ipcAwait (replyError (.jerr "boom")) = .error (.jerr "boom") ∧
    handleIpc (.jstr "ping") (fun _ => .ok .undef)
        (ipcRequest (.jstr "other") []) = none := by
  have h1 := (C6_rpc_roundtrip (.jstr "ping") (fun _ => .ok (.jstr "pong"))
    (ipcRequest (.jstr "ping") [])).2 rfl
  have h2 := h1.1 (.jstr "pong") rfl
  have h3 := (C6_rpc_roundtrip (.jstr "ping") (fun _ => .error (.jerr "boom"))
    (ipcRequest (.jstr "ping") [])).2 rfl
  have h4 := h3.2 (.jerr "boom") rfl
  have h5 := (C6_rpc_roundtrip (.jstr "ping") (fun _ => .ok .undef)
    (ipcRequest (.jstr "other") [])).1 (by decide)
  refine ⟨h2.1, h2.2, h4.1, ?_, h5⟩
  rw [h4.2]
  rfl

theorem filter_congr_here {α : Type} {p q : α → Bool} :
    ∀ {l : List α}, (∀ x ∈ l, p x = q x) → l.filter p = l.filter q
  | [], _ => rfl
  | x :: xs, h => by
    have hx := h x (List.mem_cons_self x xs)
    have ht := filter_congr_here (fun y hy => h y (List.mem_cons_of_mem _ hy))
    simp only [List.filter_cons, hx, ht]

theorem mem_makeServerKeys {table : List (String × SEntry)} {k : String} :
    k ∈ makeServerKeys table ↔ ∃ f, aget table k = some (.fn f) := by
  unfold makeServerKeys
  rw [List.mem_filter]
  constructor
  · rintro ⟨hmem, hcond⟩
    rcases hk : aget table k with _ | e2
    · rw [hk] at hcond
      dsimp only at hcond
      exact absurd hcond (by decide)
    · rcases e2 with f | v
      · exact ⟨f, rfl⟩
      · rw [hk] at hcond
        dsimp only at hcond
        simp [SEntry.isFn] at hcond
  · rintro ⟨f, hf⟩
    refine ⟨aget_mem_keys hf, ?_⟩
    dsimp only
    rw [hf]
    rfl

theorem regLoop_keys {table : List (String × SEntry)} :
    ∀ {l : List String}, (∀ k ∈ l, ∃ f, aget table k = some (.fn f)) →
      akeys (regLoop table l) = l := by
  intro l
  induction l with
  | nil => intro _; rfl
  | cons k rest ih =>
    intro h
    obtain ⟨f, hf⟩ := h k (List.mem_cons_self k rest)
    rw [regLoop, hf]
    dsimp only
    rw [akeys_cons]
    rw [ih (fun k' hk' => h k' (List.mem_cons_of_mem _ hk'))]

theorem regLoop_sound {table : List (String × SEntry)} :
    ∀ {l : List String} {k : String} {f : List JVal → Except JVal JVal},
      (k, f) ∈ regLoop table l → aget table k = some (.fn f) := by
  intro l
  induction l with
  | nil => intro k f h; simp [regLoop] at h
  | cons k' rest ih =>
    intro k f h
    rw [regLoop] at h
    match hk : aget table k' with
    | some (.fn f') =>
      rw [hk] at h
      dsimp only at h
      rcases List.mem_cons.mp h with h | h
      · injection h with h1 h2
        rw [h1, h2]
        exact hk
      · exact ih h
    | some (.val v) =>
      rw [hk] at h
      dsimp only at h
      exact ih h
    | none =>
      rw [hk] at h
      dsimp only at h
      exact ih h

/-- C7: with distinct property names, the list the `help` handler replies
with is exactly the callable keys of the table (in order), every listed key
gets exactly one registered handler (the table's own function for that
key), non-callable entries are excluded from the reply and get no
handler. -/
theorem C7_make_server_callable_keys :
    ∀ (table : List (String × SEntry)), (akeys table).Nodup →
      makeServerKeys table = akeys (table.filter (fun p => p.2.isFn)) ∧
      akeys (regLoop table (makeServerKeys table)) = makeServerKeys table ∧
      (∀ k, k ∈ makeServerKeys table ↔ ∃ f, aget table k = some (.fn f)) ∧
      (∀ k f, (k, f) ∈ regLoop table (makeServerKeys table) →
        aget table k = some (.fn f)) := by
  intro table hnd
  refine ⟨?_, regLoop_keys (fun k hk => mem_makeServerKeys.mp hk),
    fun k => mem_makeServerKeys, fun k f h => regLoop_sound h⟩
  induction table with
  | nil => rfl
  | cons p rest ih =>
    obtain ⟨k', e⟩ := p
    simp only [akeys_cons, List.nodup_cons] at hnd
    obtain ⟨hk'notin, hndrest⟩ := hnd
    unfold makeServerKeys
    rw [akeys_cons, List.filter_cons]
    have hhead : (match aget ((k', e) :: rest) k' with
        | some e2 => e2.isFn
        | none => false) = e.isFn := by
      simp [aget]
    have htail : (akeys rest).filter (fun k =>
          match aget ((k', e) :: rest) k with
          | some e2 => e2.isFn
          | none => false) =
        (akeys rest).filter (fun k =>
          match aget rest k with
          | some e2 => e2.isFn
          | none => false) := by
      apply filter_congr_here
      intro x hx
      have hxk : k' ≠ x := fun hh => hk'notin (hh ▸ hx)
      rw [aget, if_neg hxk]
    rw [hhead, htail, List.filter_cons]
    dsimp only
    have hrest := ih hndrest
    unfold makeServerKeys at hrest
    by_cases he : e.isFn = true
    · rw [if_pos he, if_pos he, akeys_cons, hrest]
    · rw [if_neg he, if_neg he]
      exact hrest

/-- A concrete server table: one callable entry, one plain value. -/
def tblC7 : List (String × SEntry) :=
  [("foo", .fn (fun _ => .ok .undef)), ("bar", .val (.jnum 3))]

/-- Witness for C7 at a concrete table: `help` lists only `foo`, one
handler is registered for it, and `bar` is excluded. -/
theorem C7_make_server_witness :
    makeServerKeys tblC7 = ["foo"] ∧
    akeys (regLoop tblC7 (makeServerKeys tblC7)) = makeServerKeys tblC7 ∧
    ("foo" ∈ makeServerKeys tblC7 ↔ ∃ f, aget tblC7 "foo" = some (.fn f)) := by
  refine ⟨rfl, (C7_make_server_callable_keys tblC7 (by decide)).2.1,
    (C7_make_server_callable_keys tblC7 (by decide)).2.2.1 "foo"⟩
